import Mathlib

/-!
Shallow embedding of the text-minesweeper game engine
(module `text_minesweeper/game.py`) and verification of its specification.

The board state is three `size × size` grids: `board` holds the cell values
(−1 mine, 0 blank, 1–8 neighbour counts), `visibility` the revealed bits and
`flags` the flag bits, mirroring the numpy arrays of the source.  `Board.step`
is translated branch for branch; numpy's index semantics (negative indices in
`[-size, -1]` wrap, anything further out raises `IndexError`) are modelled by
`npIndex`, with `none` results standing for an uncaught exception.
-/

namespace Minesweeper

/-- A board position, a Python `(row, col)` tuple of ints. -/
abbrev Pos := Int × Int

/-- The module-level constant `ADJACENT_SPACE_DELTAS` (4-adjacency). -/
def ADJACENT_SPACE_DELTAS : List Pos := [(-1, 0), (0, 1), (1, 0), (0, -1)]

/-- The module-level constant `SURROUNDING_SPACE_DELTAS` (8-neighbourhood). -/
def SURROUNDING_SPACE_DELTAS : List Pos :=
  [(-1, -1), (-1, 0), (-1, 1), (0, -1), (0, 1), (1, -1), (1, 0), (1, 1)]

/-- Reading a 2-d array element `g[r, c]`.  Every call site below guards
`0 ≤ r < size` and `0 ≤ c < size`, where this agrees with numpy. -/
def cell {α : Type} [Inhabited α] (g : List (List α)) (r c : Int) : α :=
  (g.getD r.toNat []).getD c.toNat default

/-- Writing a 2-d array element `g[r, c] = v` (indices already normalised to
naturals). -/
def setCell {α : Type} (g : List (List α)) (r c : Nat) (v : α) : List (List α) :=
  g.set r ((g.getD r []).set c v)

/-- Normalising a numpy index: values in `[0, size)` are kept, values in
`[-size, -1]` wrap around, anything else raises `IndexError` (`none`). -/
def npIndex (size : Nat) (i : Int) : Option Nat :=
  if 0 ≤ i ∧ i < (size : Int) then some i.toNat
  else if -(size : Int) ≤ i ∧ i < 0 then some (i + size).toNat
  else none

/-- The board state of class `Board`. -/
structure Board where
  board_size : Nat
  num_mines : Nat
  board : List (List Int)
  visibility : List (List Bool)
  flags : List (List Bool)

/-- A rectangular `size × size` grid. -/
def gridWF {α : Type} (size : Nat) (g : List (List α)) : Prop :=
  g.length = size ∧ ∀ row ∈ g, row.length = size

/-- Well-formed board: all three grids are `board_size × board_size`. -/
def Board.WF (B : Board) : Prop :=
  gridWF B.board_size B.board ∧ gridWF B.board_size B.visibility ∧
    gridWF B.board_size B.flags

/-- The method `Board._within_board`. -/
def within_board (size : Nat) (r c : Int) : Bool :=
  decide (0 ≤ r) && decide (r < (size : Int)) &&
    (decide (0 ≤ c) && decide (c < (size : Int)))

/-- The method `Board._num_mines_surrounding`: number of mines among the up to
8 in-board neighbours. -/
def num_mines_surrounding (size : Nat) (g : List (List Int)) (r c : Int) : Int :=
  SURROUNDING_SPACE_DELTAS.foldl
    (fun mines d =>
      if within_board size (r + d.1) (c + d.2) && (cell g (r + d.1) (c + d.2) == -1)
      then mines + 1 else mines) 0

/-- Body of the inner `for` loop of `Board._connected_blank_spaces`: if the
neighbour `p + d` is an unvisited in-board zero-valued cell, push it onto both
the queue and the spaces list. -/
def expandStep (size : Nat) (g : List (List Int)) (p : Pos)
    (qs : List Pos × List Pos) (d : Pos) : List Pos × List Pos :=
  let q : Pos := (p.1 + d.1, p.2 + d.2)
  if within_board size q.1 q.2 && (cell g q.1 q.2 == 0) && !(qs.2.contains q)
  then (qs.1 ++ [q], qs.2 ++ [q]) else qs

/-- One pass of the inner `for` loop of `Board._connected_blank_spaces`: push
the unvisited in-board zero-valued neighbours of `p` onto the queue and the
spaces list. -/
def expandBlanks (size : Nat) (g : List (List Int)) (p : Pos)
    (qs : List Pos × List Pos) : List Pos × List Pos :=
  ADJACENT_SPACE_DELTAS.foldl (expandStep size g p) qs

/-- The `while` loop of `Board._connected_blank_spaces`, with explicit fuel.
Fuel `size * size + 1` always suffices: the number of pops equals the number
of cells ever enqueued, and those form a duplicate-free list of in-board cells
together with the single starting cell. -/
def cbsAux (size : Nat) (g : List (List Int)) :
    Nat → List Pos → List Pos → List Pos
  | 0, _, spaces => spaces
  | _ + 1, [], spaces => spaces
  | fuel + 1, p :: queue, spaces =>
      let qs := expandBlanks size g p (queue, spaces)
      cbsAux size g fuel qs.1 qs.2

/-- The method `Board._connected_blank_spaces`. -/
def connected_blank_spaces (size : Nat) (g : List (List Int)) (row col : Int) :
    List Pos :=
  cbsAux size g (size * size + 1) [(row, col)] [(row, col)]

/-- Writing `visibility[r, c] = True` with raw (possibly negative) indices, as
numpy does; inside `step` both indices are always within `[-size, size)`, so
the fallthrough case is unreachable there. -/
def setVisNp (size : Nat) (vis : List (List Bool)) (r c : Int) : List (List Bool) :=
  match npIndex size r, npIndex size c with
  | some i, some j => setCell vis i j true
  | _, _ => vis

/-- Body of the rim loop inside the zero-cell branch of `Board.step`: if the
neighbour `s + d` is an in-board cell with a positive value, reveal it. -/
def rimStep (size : Nat) (g : List (List Int)) (s : Pos)
    (v : List (List Bool)) (d : Pos) : List (List Bool) :=
  let q : Pos := (s.1 + d.1, s.2 + d.2)
  if within_board size q.1 q.2 && decide (0 < cell g q.1 q.2)
  then setCell v q.1.toNat q.2.toNat true else v

/-- Body of the `for space_row, space_col in blank_spaces` loop in `Board.step`:
reveal the blank cell, then reveal its numbered (value > 0) in-board
neighbours. -/
def revealOne (size : Nat) (g : List (List Int)) (vis : List (List Bool))
    (s : Pos) : List (List Bool) :=
  SURROUNDING_SPACE_DELTAS.foldl (rimStep size g s) (setVisNp size vis s.1 s.2)

/-- The whole reveal loop of the zero-cell branch of `Board.step`. -/
def revealSpaces (size : Nat) (g : List (List Int)) (vis : List (List Bool))
    (spaces : List Pos) : List (List Bool) :=
  spaces.foldl (revealOne size g) vis

/-- The count `np.sum(self.visibility)` of revealed cells. -/
def countTrue (g : List (List Bool)) : Nat :=
  (g.map (fun row => row.count true)).sum

/-- The win check at the end of `Board.step`: status `1` (won) exactly when
`np.sum(self.visibility) == self.board_size ** 2 - self.num_mines`, else `0`
(ongoing). -/
def queryStatus (B : Board) : Int :=
  if (countTrue B.visibility : Int) = (B.board_size : Int) ^ 2 - (B.num_mines : Int)
  then 1 else 0

/-- The method `Board.step`.  `none` models an uncaught `IndexError` from numpy
indexing (every branch reads an array at `[row, col]` before its first write).
The returned status is `0` ongoing, `-1` lost, `1` won. -/
def Board.step (B : Board) (row col : Int) (flag : Bool) : Option (Board × Int) :=
  match npIndex B.board_size row, npIndex B.board_size col with
  | some r, some c =>
    if flag then
      let B' := { B with flags := setCell B.flags r c (! cell B.flags (r : Int) (c : Int)) }
      some (B', queryStatus B')
    else if 0 < cell B.board (r : Int) (c : Int) then
      let B' := { B with visibility := setCell B.visibility r c true }
      some (B', queryStatus B')
    else if cell B.board (r : Int) (c : Int) = 0 then
      let spaces := connected_blank_spaces B.board_size B.board row col
      let B' := { B with visibility := revealSpaces B.board_size B.board B.visibility spaces }
      some (B', queryStatus B')
    else
      if cell B.flags (r : Int) (c : Int) then some (B, queryStatus B)
      else some ({ B with visibility := setCell B.visibility r c true }, -1)
  | _, _ => none

/-- An all-`v` grid of shape `size × size` (`np.zeros`). -/
def constGrid {α : Type} (size : Nat) (v : α) : List (List α) :=
  List.replicate size (List.replicate size v)

/-- The mine-placing loop of `Board.__init__`: each sampled flat index `f`
marks cell `(f / size, f % size)` with `-1`. -/
def place_mines (size : Nat) (locs : List Nat) : List (List Int) :=
  locs.foldl (fun g f => setCell g (f / size) (f % size) (-1))
    (constGrid size (0 : Int))

/-- Row-major enumeration of the cells, in the order the nested `for` loops of
`Board.__init__` visit them. -/
def allPos (size : Nat) : List (Nat × Nat) :=
  (List.range size).flatMap (fun r => (List.range size).map (fun c => (r, c)))

/-- Body of the adjacency-count loop of `Board.__init__`: a cell whose current
value is not `-1` is overwritten with its surrounding-mine count read from the
current grid. -/
def countStep (size : Nat) (g : List (List Int)) (p : Nat × Nat) :
    List (List Int) :=
  if cell g (p.1 : Int) (p.2 : Int) ≠ -1
  then setCell g p.1 p.2 (num_mines_surrounding size g (p.1 : Int) (p.2 : Int))
  else g

/-- The adjacency-count loop of `Board.__init__`: every cell whose current
value is not `-1` is overwritten, in row-major order, with its
surrounding-mine count read from the current grid. -/
def compute_counts (size : Nat) (g : List (List Int)) : List (List Int) :=
  (allPos size).foldl (countStep size) g

/-- The constructor `Board.__init__`, parameterised by the sample `locs` that
`np.random.choice(board_size ** 2, num_mines, replace=False)` returns.  `none`
models the `ValueError`s numpy raises before any attribute is set: `np.zeros`
rejects a negative dimension, and `choice` rejects a negative sample size or a
sample larger than the population (the population is `board_size ** 2`). -/
def boardNew (board_size num_mines : Int) (locs : List Nat) : Option Board :=
  if board_size < 0 then none
  else if num_mines < 0 ∨ board_size ^ 2 < num_mines then none
  else
    let size := board_size.toNat
    some { board_size := size
           num_mines := num_mines.toNat
           board := compute_counts size (place_mines size locs)
           visibility := constGrid size false
           flags := constGrid size false }

/-- A possible return of `np.random.choice(size * size, n, replace=False)`:
`n` distinct flat indices below `size * size`. -/
def validSample (size n : Nat) (locs : List Nat) : Prop :=
  locs.Nodup ∧ locs.length = n ∧ ∀ f ∈ locs, f < size * size

/-- Declarative 4-adjacency reachability through in-board zero-valued cells,
starting at `p0`.  It mentions no traversal order: it is the set-closure the
specification describes, and the BFS result is proved below to coincide with
it. -/
inductive ZeroReach (size : Nat) (g : List (List Int)) (p0 : Pos) : Pos → Prop
  | refl : ZeroReach size g p0 p0
  | step {p : Pos} (d : Pos) :
      d ∈ ADJACENT_SPACE_DELTAS → ZeroReach size g p0 p →
      within_board size (p.1 + d.1) (p.2 + d.2) = true →
      cell g (p.1 + d.1) (p.2 + d.2) = 0 →
      ZeroReach size g p0 (p.1 + d.1, p.2 + d.2)

/-- Reading a grid at natural-number indices (the normalised view of `cell`). -/
def cellN {α : Type} [Inhabited α] (g : List (List α)) (r c : Nat) : α :=
  (g.getD r []).getD c default

theorem cell_natCast {α : Type} [Inhabited α] (g : List (List α)) (r c : Nat) :
    cell g (r : Int) (c : Int) = cellN g r c := by
  simp [cell, cellN]

theorem length_setCell {α : Type} (g : List (List α)) (r c : Nat) (v : α) :
    (setCell g r c v).length = g.length := by
  simp [setCell]

theorem getD_set_same {α : Type} (l : List α) (i : Nat) (v d : α) (h : i < l.length) :
    (l.set i v).getD i d = v := by
  simp [List.getD_eq_getElem?_getD, List.getElem?_set_self h]

theorem getD_set_other {α : Type} (l : List α) (i j : Nat) (v d : α) (h : i ≠ j) :
    (l.set i v).getD j d = l.getD j d := by
  simp [List.getD_eq_getElem?_getD, List.getElem?_set_ne h]

theorem getD_set_oob {α : Type} (l : List α) (i : Nat) (v : α) (h : l.length ≤ i) :
    l.set i v = l :=
  List.set_eq_of_length_le h

theorem cellN_setCell_ne {α : Type} [Inhabited α] (g : List (List α))
    (r c r' c' : Nat) (v : α) (h : ¬(r' = r ∧ c' = c)) :
    cellN (setCell g r c v) r' c' = cellN g r' c' := by
  by_cases hr : r' = r
  · subst hr
    have hc : c' ≠ c := fun hc => h ⟨rfl, hc⟩
    by_cases hlen : r' < g.length
    · unfold cellN setCell
      rw [getD_set_same g r' _ [] hlen, getD_set_other _ c c' v default (Ne.symm hc)]
    · unfold cellN setCell
      rw [getD_set_oob g r' _ (Nat.le_of_not_lt hlen)]
  · unfold cellN setCell
    rw [getD_set_other g r r' _ [] (Ne.symm hr)]

theorem cellN_setCell_self {α : Type} [Inhabited α] (g : List (List α))
    (r c : Nat) (v : α) (hr : r < g.length) (hc : c < (g.getD r []).length) :
    cellN (setCell g r c v) r c = v := by
  unfold cellN setCell
  rw [getD_set_same g r _ [] hr, getD_set_same _ c v default hc]

theorem cellN_setCell {α : Type} [Inhabited α] (g : List (List α))
    (r c r' c' : Nat) (v : α) (hr : r < g.length) (hc : c < (g.getD r []).length) :
    cellN (setCell g r c v) r' c' = if r' = r ∧ c' = c then v else cellN g r' c' := by
  by_cases h : r' = r ∧ c' = c
  · rcases h with ⟨h1, h2⟩
    subst h1; subst h2
    simp [cellN_setCell_self g r' c' v hr hc]
  · simp [h, cellN_setCell_ne g r c r' c' v h]

theorem gridWF_row_length {α : Type} {size : Nat} {g : List (List α)}
    (h : gridWF size g) (r : Nat) (hr : r < size) : (g.getD r []).length = size := by
  rcases h with ⟨hlen, hrows⟩
  have hr' : r < g.length := by rw [hlen]; exact hr
  have : g.getD r [] = g[r] := by
    simp [List.getD_eq_getElem?_getD, List.getElem?_eq_getElem hr']
  rw [this]
  exact hrows g[r] (List.getElem_mem hr')

theorem gridWF_setCell {α : Type} {size : Nat} {g : List (List α)}
    (h : gridWF size g) (r c : Nat) (v : α) (hr : r < size) :
    gridWF size (setCell g r c v) := by
  have hrowlen := gridWF_row_length h r hr
  rcases h with ⟨hlen, hrows⟩
  refine ⟨by simpa [setCell] using hlen, ?_⟩
  intro row hrow
  rcases List.mem_or_eq_of_mem_set hrow with hmem | heq
  · exact hrows row hmem
  · subst heq
    rw [List.length_set]
    exact hrowlen

theorem npIndex_natCast {size r : Nat} (h : r < size) :
    npIndex size (r : Int) = some r := by
  simp [npIndex, h]

theorem step_flag_branch (B : Board) (r c : Nat)
    (hr : r < B.board_size) (hc : c < B.board_size) :
    B.step (r : Int) (c : Int) true =
      some ({ B with flags := setCell B.flags r c (! cellN B.flags r c) },
        queryStatus { B with flags := setCell B.flags r c (! cellN B.flags r c) }) := by
  unfold Board.step
  rw [npIndex_natCast hr, npIndex_natCast hc]
  simp [cell_natCast]

theorem step_pos_branch (B : Board) (r c : Nat)
    (hr : r < B.board_size) (hc : c < B.board_size)
    (hcell : 0 < cellN B.board r c) :
    B.step (r : Int) (c : Int) false =
      some ({ B with visibility := setCell B.visibility r c true },
        queryStatus { B with visibility := setCell B.visibility r c true }) := by
  unfold Board.step
  rw [npIndex_natCast hr, npIndex_natCast hc]
  simp [cell_natCast, hcell]

theorem step_zero_branch (B : Board) (r c : Nat)
    (hr : r < B.board_size) (hc : c < B.board_size)
    (hcell : cellN B.board r c = 0) :
    B.step (r : Int) (c : Int) false =
      some ({ B with visibility := (revealSpaces B.board_size B.board B.visibility
          (connected_blank_spaces B.board_size B.board (r : Int) (c : Int))) },
        queryStatus { B with visibility := (revealSpaces B.board_size B.board B.visibility
          (connected_blank_spaces B.board_size B.board (r : Int) (c : Int))) }) := by
  unfold Board.step
  rw [npIndex_natCast hr, npIndex_natCast hc]
  simp [cell_natCast, hcell]

theorem step_mine_flagged_branch (B : Board) (r c : Nat)
    (hr : r < B.board_size) (hc : c < B.board_size)
    (hcell : cellN B.board r c < 0) (hflag : cellN B.flags r c = true) :
    B.step (r : Int) (c : Int) false = some (B, queryStatus B) := by
  unfold Board.step
  rw [npIndex_natCast hr, npIndex_natCast hc]
  simp [cell_natCast, hcell, hflag, Int.not_lt.mpr (Int.le_of_lt hcell),
    Int.ne_of_lt hcell]

theorem step_mine_unflagged_branch (B : Board) (r c : Nat)
    (hr : r < B.board_size) (hc : c < B.board_size)
    (hcell : cellN B.board r c < 0) (hflag : cellN B.flags r c = false) :
    B.step (r : Int) (c : Int) false =
      some ({ B with visibility := setCell B.visibility r c true }, -1) := by
  unfold Board.step
  rw [npIndex_natCast hr, npIndex_natCast hc]
  simp [cell_natCast, hcell, hflag, Int.not_lt.mpr (Int.le_of_lt hcell),
    Int.ne_of_lt hcell]

theorem queryStatus_ne_neg_one (B : Board) : queryStatus B ≠ -1 := by
  unfold queryStatus
  split <;> decide

theorem queryStatus_eq_one_iff (B : Board) :
    queryStatus B = 1 ↔ (countTrue B.visibility : Int) =
      (B.board_size : Int) ^ 2 - (B.num_mines : Int) := by
  unfold queryStatus
  split <;> simp [*]

theorem queryStatus_eq_zero_iff (B : Board) :
    queryStatus B = 0 ↔ (countTrue B.visibility : Int) ≠
      (B.board_size : Int) ^ 2 - (B.num_mines : Int) := by
  unfold queryStatus
  split <;> simp [*]

theorem flags_bounds {B : Board} (hWF : B.WF) {r c : Nat}
    (hr : r < B.board_size) (hc : c < B.board_size) :
    r < B.flags.length ∧ c < (B.flags.getD r []).length := by
  refine ⟨?_, ?_⟩
  · rw [hWF.2.2.1]; exact hr
  · rw [gridWF_row_length hWF.2.2 r hr]; exact hc

theorem vis_bounds {B : Board} (hWF : B.WF) {r c : Nat}
    (hr : r < B.board_size) (hc : c < B.board_size) :
    r < B.visibility.length ∧ c < (B.visibility.getD r []).length := by
  refine ⟨?_, ?_⟩
  · rw [hWF.2.1.1]; exact hr
  · rw [gridWF_row_length hWF.2.1 r hr]; exact hc

instance {α : Type} [DecidableEq α] (size : Nat) (g : List (List α)) :
    Decidable (gridWF size g) := by
  unfold gridWF; infer_instance

instance (B : Board) : Decidable B.WF := by
  unfold Board.WF; infer_instance

/-- A fixed 3×3 board with one mine in the centre, used to exercise the
theorems on concrete inputs. -/
def testBoard : Board :=
  { board_size := 3
    num_mines := 1
    board := [[1, 1, 1], [1, -1, 1], [1, 1, 1]]
    visibility := constGrid 3 false
    flags := constGrid 3 false }

/-- The same 3×3 board with the central mine flagged. -/
def testBoardFlagged : Board :=
  { board_size := 3
    num_mines := 1
    board := [[1, 1, 1], [1, -1, 1], [1, 1, 1]]
    visibility := constGrid 3 false
    flags := [[false, false, false], [false, true, false], [false, false, false]] }

/-- C2: a flag move on an in-bounds cell toggles exactly `flagged[row][col]`,
leaves the revealed grid (and the rest of the board) unchanged, and returns
the aggregate status recomputed from the revealed count: it is never `-1`
(Lost), it is `1` (Won) exactly when the revealed count equals
`size² − mine_count`, and `0` (Ongoing) otherwise; in particular it equals the
status the board already had before the move. -/
theorem C2_flag_toggle (B : Board) (r c : Nat) (hWF : B.WF)
    (hr : r < B.board_size) (hc : c < B.board_size) :
    ∃ B' s, B.step (r : Int) (c : Int) true = some (B', s) ∧
      B'.board = B.board ∧ B'.visibility = B.visibility ∧
      B'.board_size = B.board_size ∧ B'.num_mines = B.num_mines ∧
      (∀ r' c' : Nat, cellN B'.flags r' c' =
        if r' = r ∧ c' = c then ! cellN B.flags r c else cellN B.flags r' c') ∧
      s = queryStatus B ∧ s ≠ -1 ∧
      (s = 1 ↔ (countTrue B.visibility : Int) =
        (B.board_size : Int) ^ 2 - (B.num_mines : Int)) ∧
      (s = 0 ↔ (countTrue B.visibility : Int) ≠
        (B.board_size : Int) ^ 2 - (B.num_mines : Int)) := by
  obtain ⟨hfr, hfc⟩ := flags_bounds hWF hr hc
  refine ⟨_, _, step_flag_branch B r c hr hc, rfl, rfl, rfl, rfl, ?_, rfl, ?_, ?_, ?_⟩
  · intro r' c'
    exact cellN_setCell B.flags r c r' c' (! cellN B.flags r c) hfr hfc
  · exact queryStatus_ne_neg_one B
  · exact queryStatus_eq_one_iff B
  · exact queryStatus_eq_zero_iff B

/-- Witness for C2 on the concrete board `testBoard` at cell (0, 2). -/
theorem C2_flag_toggle_witness :
    ∃ B' s, testBoard.step ((0 : Nat) : Int) ((2 : Nat) : Int) true = some (B', s) ∧
      B'.board = testBoard.board ∧ B'.visibility = testBoard.visibility ∧
      B'.board_size = testBoard.board_size ∧ B'.num_mines = testBoard.num_mines ∧
      (∀ r' c' : Nat, cellN B'.flags r' c' =
        if r' = 0 ∧ c' = 2 then ! cellN testBoard.flags 0 2
        else cellN testBoard.flags r' c') ∧
      s = queryStatus testBoard ∧ s ≠ -1 ∧
      (s = 1 ↔ (countTrue testBoard.visibility : Int) =
        (testBoard.board_size : Int) ^ 2 - (testBoard.num_mines : Int)) ∧
      (s = 0 ↔ (countTrue testBoard.visibility : Int) ≠
        (testBoard.board_size : Int) ^ 2 - (testBoard.num_mines : Int)) :=
  C2_flag_toggle testBoard 0 2 (by decide) (by decide) (by decide)

/-- C3: revealing an in-bounds unflagged mine sets exactly that cell's
revealed bit, returns `-1` (Lost) unconditionally — bypassing the win check —
and mutates nothing else. -/
theorem C3_mine_unflagged (B : Board) (r c : Nat) (hWF : B.WF)
    (hr : r < B.board_size) (hc : c < B.board_size)
    (hmine : cellN B.board r c = -1) (hflag : cellN B.flags r c = false) :
    ∃ B', B.step (r : Int) (c : Int) false = some (B', -1) ∧
      B'.board = B.board ∧ B'.flags = B.flags ∧
      B'.board_size = B.board_size ∧ B'.num_mines = B.num_mines ∧
      (∀ r' c' : Nat, cellN B'.visibility r' c' =
        if r' = r ∧ c' = c then true else cellN B.visibility r' c') := by
  obtain ⟨hvr, hvc⟩ := vis_bounds hWF hr hc
  have hneg : cellN B.board r c < 0 := by rw [hmine]; decide
  refine ⟨_, step_mine_unflagged_branch B r c hr hc hneg hflag, rfl, rfl, rfl, rfl, ?_⟩
  intro r' c'
  exact cellN_setCell B.visibility r c r' c' true hvr hvc

/-- Witness for C3 on `testBoard`, revealing the central mine (1, 1). -/
theorem C3_mine_unflagged_witness :
    ∃ B', testBoard.step ((1 : Nat) : Int) ((1 : Nat) : Int) false = some (B', -1) ∧
      B'.board = testBoard.board ∧ B'.flags = testBoard.flags ∧
      B'.board_size = testBoard.board_size ∧ B'.num_mines = testBoard.num_mines ∧
      (∀ r' c' : Nat, cellN B'.visibility r' c' =
        if r' = 1 ∧ c' = 1 then true else cellN testBoard.visibility r' c') :=
  C3_mine_unflagged testBoard 1 1 (by decide) (by decide) (by decide) (by decide)
    (by decide)

/-- C4: revealing an in-bounds flagged mine is a no-op: the returned board is
the unchanged input board, and the returned status is the board's own
recomputed status, which is never `-1` (Lost). -/
theorem C4_mine_flagged_noop (B : Board) (r c : Nat)
    (hr : r < B.board_size) (hc : c < B.board_size)
    (hmine : cellN B.board r c = -1) (hflag : cellN B.flags r c = true) :
    B.step (r : Int) (c : Int) false = some (B, queryStatus B) ∧
      queryStatus B ≠ -1 ∧
      (queryStatus B = 1 ↔ (countTrue B.visibility : Int) =
        (B.board_size : Int) ^ 2 - (B.num_mines : Int)) := by
  have hneg : cellN B.board r c < 0 := by rw [hmine]; decide
  exact ⟨step_mine_flagged_branch B r c hr hc hneg hflag,
    queryStatus_ne_neg_one B, queryStatus_eq_one_iff B⟩

/-- Witness for C4 on `testBoardFlagged`, revealing the flagged mine (1, 1). -/
theorem C4_mine_flagged_noop_witness :
    testBoardFlagged.step ((1 : Nat) : Int) ((1 : Nat) : Int) false =
        some (testBoardFlagged, queryStatus testBoardFlagged) ∧
      queryStatus testBoardFlagged ≠ -1 ∧
      (queryStatus testBoardFlagged = 1 ↔ (countTrue testBoardFlagged.visibility : Int) =
        (testBoardFlagged.board_size : Int) ^ 2 - (testBoardFlagged.num_mines : Int)) :=
  C4_mine_flagged_noop testBoardFlagged 1 1 (by decide) (by decide) (by decide)
    (by decide)

/-- C9: revealing an in-bounds cell with a positive value sets exactly that
cell's revealed bit; every other cell's revealed state, all flags and all cell
values are unchanged. -/
theorem C9_reveal_number (B : Board) (r c : Nat) (hWF : B.WF)
    (hr : r < B.board_size) (hc : c < B.board_size)
    (hcell : 0 < cellN B.board r c) :
    ∃ B' s, B.step (r : Int) (c : Int) false = some (B', s) ∧
      B'.board = B.board ∧ B'.flags = B.flags ∧
      B'.board_size = B.board_size ∧ B'.num_mines = B.num_mines ∧
      (∀ r' c' : Nat, cellN B'.visibility r' c' =
        if r' = r ∧ c' = c then true else cellN B.visibility r' c') ∧
      s = queryStatus B' := by
  obtain ⟨hvr, hvc⟩ := vis_bounds hWF hr hc
  refine ⟨_, _, step_pos_branch B r c hr hc hcell, rfl, rfl, rfl, rfl, ?_, rfl⟩
  intro r' c'
  exact cellN_setCell B.visibility r c r' c' true hvr hvc

/-- Witness for C9 on `testBoard`, revealing the numbered cell (2, 0). -/
theorem C9_reveal_number_witness :
    ∃ B' s, testBoard.step ((2 : Nat) : Int) ((0 : Nat) : Int) false = some (B', s) ∧
      B'.board = testBoard.board ∧ B'.flags = testBoard.flags ∧
      B'.board_size = testBoard.board_size ∧ B'.num_mines = testBoard.num_mines ∧
      (∀ r' c' : Nat, cellN B'.visibility r' c' =
        if r' = 2 ∧ c' = 0 then true else cellN testBoard.visibility r' c') ∧
      s = queryStatus B' :=
  C9_reveal_number testBoard 2 0 (by decide) (by decide) (by decide) (by decide)

theorem within_board_iff (size : Nat) (r c : Int) :
    within_board size r c = true ↔
      0 ≤ r ∧ r < (size : Int) ∧ 0 ≤ c ∧ c < (size : Int) := by
  simp [within_board, and_assoc]

theorem contains_iff_mem (l : List Pos) (q : Pos) :
    l.contains q = true ↔ q ∈ l := by
  simp

theorem contains_eq_false_iff (l : List Pos) (q : Pos) :
    l.contains q = false ↔ q ∉ l := by
  rw [← contains_iff_mem l q]
  exact Bool.eq_false_iff

theorem expandFold_spec (size : Nat) (g : List (List Int)) (p : Pos)
    (ds : List Pos) :
    ∀ queue spaces : List Pos,
      ∃ new : List Pos,
        List.foldl (expandStep size g p) (queue, spaces) ds =
          (queue ++ new, spaces ++ new) ∧
        new.Nodup ∧
        (∀ q ∈ new, q ∉ spaces ∧
          within_board size q.1 q.2 = true ∧ cell g q.1 q.2 = 0 ∧
          ∃ d ∈ ds, q = (p.1 + d.1, p.2 + d.2)) ∧
        (∀ d ∈ ds, within_board size (p.1 + d.1) (p.2 + d.2) = true →
          cell g (p.1 + d.1) (p.2 + d.2) = 0 →
          (p.1 + d.1, p.2 + d.2) ∈ spaces ++ new) := by
  induction ds with
  | nil =>
    intro queue spaces
    exact ⟨[], by simp, List.nodup_nil, by simp, by simp⟩
  | cons d ds ih =>
    intro queue spaces
    rw [List.foldl_cons]
    by_cases hcond : (within_board size (p.1 + d.1) (p.2 + d.2) &&
        (cell g (p.1 + d.1) (p.2 + d.2) == 0) &&
        !(spaces.contains (p.1 + d.1, p.2 + d.2))) = true
    · have hstep : expandStep size g p (queue, spaces) d =
          (queue ++ [(p.1 + d.1, p.2 + d.2)], spaces ++ [(p.1 + d.1, p.2 + d.2)]) := by
        simp only [expandStep]
        rw [if_pos hcond]
      have hparts := hcond
      simp only [Bool.and_eq_true, Bool.not_eq_true', beq_iff_eq] at hparts
      have hw : within_board size (p.1 + d.1) (p.2 + d.2) = true := hparts.1.1
      have hz : cell g (p.1 + d.1) (p.2 + d.2) = 0 := hparts.1.2
      have hns : (p.1 + d.1, p.2 + d.2) ∉ spaces :=
        (contains_eq_false_iff spaces _).mp hparts.2
      obtain ⟨new', h1, h2, h3, h4⟩ :=
        ih (queue ++ [(p.1 + d.1, p.2 + d.2)]) (spaces ++ [(p.1 + d.1, p.2 + d.2)])
      refine ⟨(p.1 + d.1, p.2 + d.2) :: new', ?_, ?_, ?_, ?_⟩
      · rw [hstep, h1]
        simp
      · refine List.nodup_cons.mpr ⟨?_, h2⟩
        intro hmem
        exact (h3 _ hmem).1 (by simp)
      · intro q hq
        rcases List.mem_cons.mp hq with hq | hq
        · subst hq
          exact ⟨hns, hw, hz, d, List.mem_cons_self d ds, rfl⟩
        · obtain ⟨hq1, hq2, hq3, d', hd', hq4⟩ := h3 q hq
          refine ⟨fun hmem => hq1 (by simp [hmem]), hq2, hq3, d',
            List.mem_cons_of_mem d hd', hq4⟩
      · intro d' hd' hw' hz'
        rcases List.mem_cons.mp hd' with hd' | hd'
        · subst hd'
          simp
        · have := h4 d' hd' hw' hz'
          simpa [List.append_assoc] using this
    · have hstep : expandStep size g p (queue, spaces) d = (queue, spaces) := by
        simp only [expandStep]
        rw [if_neg hcond]
      obtain ⟨new', h1, h2, h3, h4⟩ := ih queue spaces
      refine ⟨new', by rw [hstep, h1], h2, ?_, ?_⟩
      · intro q hq
        obtain ⟨hq1, hq2, hq3, d', hd', hq4⟩ := h3 q hq
        exact ⟨hq1, hq2, hq3, d', List.mem_cons_of_mem d hd', hq4⟩
      · intro d' hd' hw' hz'
        rcases List.mem_cons.mp hd' with hd' | hd'
        · subst hd'
          have hmem : (p.1 + d'.1, p.2 + d'.2) ∈ spaces := by
            by_contra hnm
            apply hcond
            simp only [Bool.and_eq_true, Bool.not_eq_true', beq_iff_eq]
            exact ⟨⟨hw', hz'⟩, (contains_eq_false_iff spaces _).mpr hnm⟩
          simp [hmem]
        · exact h4 d' hd' hw' hz'

theorem nodup_inboard_length_le (size : Nat) (l : List Pos) (hnd : l.Nodup)
    (hin : ∀ p ∈ l, within_board size p.1 p.2 = true) :
    l.length ≤ size * size := by
  classical
  have hcomp : ∀ p ∈ l, p.1.toNat < size ∧ p.2.toNat < size ∧
      (p.1.toNat : Int) = p.1 ∧ (p.2.toNat : Int) = p.2 := by
    intro p hp
    obtain ⟨h1, h2, h3, h4⟩ := (within_board_iff size p.1 p.2).mp (hin p hp)
    refine ⟨?_, ?_, Int.toNat_of_nonneg h1, Int.toNat_of_nonneg h3⟩
    · omega
    · omega
  have hsize : l = [] ∨ 0 < size := by
    rcases l with _ | ⟨p, l'⟩
    · exact Or.inl rfl
    · right
      have := (hcomp p (by simp)).1
      omega
  rcases hsize with rfl | hsize
  · simp
  have hinj : ∀ x ∈ l, ∀ y ∈ l,
      x.1.toNat * size + x.2.toNat = y.1.toNat * size + y.2.toNat → x = y := by
    intro x hx y hy hxy
    obtain ⟨hx1, hx2, hx3, hx4⟩ := hcomp x hx
    obtain ⟨hy1, hy2, hy3, hy4⟩ := hcomp y hy
    have ediv : ∀ a b : Nat, b < size → (a * size + b) / size = a := by
      intro a b hb
      rw [Nat.mul_comm a size, Nat.mul_add_div hsize, Nat.div_eq_of_lt hb,
        Nat.add_zero]
    have hdiv : x.1.toNat = y.1.toNat := by
      rw [← ediv x.1.toNat x.2.toNat hx2, hxy, ediv y.1.toNat y.2.toNat hy2]
    have hmod : x.2.toNat = y.2.toNat := by
      have h := hxy
      rw [hdiv] at h
      exact Nat.add_left_cancel h
    have : (x.1, x.2) = (y.1, y.2) := by
      rw [← hx3, ← hx4, ← hy3, ← hy4, hdiv, hmod]
    simpa using this
  have hmapnd : (l.map (fun p : Pos => p.1.toNat * size + p.2.toNat)).Nodup :=
    hnd.map_on hinj
  have hlt : ∀ n ∈ l.map (fun p : Pos => p.1.toNat * size + p.2.toNat),
      n < size * size := by
    intro n hn
    obtain ⟨p, hp, rfl⟩ := List.mem_map.mp hn
    obtain ⟨h1, h2, _, _⟩ := hcomp p hp
    calc p.1.toNat * size + p.2.toNat < p.1.toNat * size + size := by omega
      _ = (p.1.toNat + 1) * size := by ring
      _ ≤ size * size := Nat.mul_le_mul_right size h1
  calc l.length = (l.map (fun p : Pos => p.1.toNat * size + p.2.toNat)).length :=
        (List.length_map _ _).symm
    _ = (l.map (fun p : Pos => p.1.toNat * size + p.2.toNat)).toFinset.card :=
        (List.toFinset_card_of_nodup hmapnd).symm
    _ ≤ (Finset.range (size * size)).card := by
        apply Finset.card_le_card
        intro n hn
        rw [List.mem_toFinset] at hn
        rw [Finset.mem_range]
        exact hlt n hn
    _ = size * size := Finset.card_range _

theorem cbsAux_spec (size : Nat) (g : List (List Int)) (P : Pos → Prop)
    (hP : ∀ (p d : Pos), d ∈ ADJACENT_SPACE_DELTAS → P p →
      within_board size (p.1 + d.1) (p.2 + d.2) = true →
      cell g (p.1 + d.1) (p.2 + d.2) = 0 → P (p.1 + d.1, p.2 + d.2)) :
    ∀ (fuel : Nat) (queue spaces : List Pos),
      spaces.Nodup →
      (∀ p ∈ queue, p ∈ spaces) →
      (∀ p ∈ spaces, p ∉ queue → ∀ d ∈ ADJACENT_SPACE_DELTAS,
        within_board size (p.1 + d.1) (p.2 + d.2) = true →
        cell g (p.1 + d.1) (p.2 + d.2) = 0 → (p.1 + d.1, p.2 + d.2) ∈ spaces) →
      (∀ p ∈ spaces, P p) →
      queue.length +
        (size * size -
          (spaces.filter (fun p => within_board size p.1 p.2)).length) ≤ fuel →
      (∀ p ∈ spaces, p ∈ cbsAux size g fuel queue spaces) ∧
      (∀ p ∈ cbsAux size g fuel queue spaces, P p) ∧
      (∀ p ∈ cbsAux size g fuel queue spaces, ∀ d ∈ ADJACENT_SPACE_DELTAS,
        within_board size (p.1 + d.1) (p.2 + d.2) = true →
        cell g (p.1 + d.1) (p.2 + d.2) = 0 →
        (p.1 + d.1, p.2 + d.2) ∈ cbsAux size g fuel queue spaces) := by
  intro fuel
  induction fuel with
  | zero =>
    intro queue spaces hnd hqs hcl hps hfuel
    have hq : queue = [] := by
      cases queue with
      | nil => rfl
      | cons a l => simp at hfuel
    subst hq
    refine ⟨fun p hp => hp, hps, ?_⟩
    intro p hp d hd hw hz
    exact hcl p hp (by simp) d hd hw hz
  | succ fuel ih =>
    intro queue spaces hnd hqs hcl hps hfuel
    cases queue with
    | nil =>
      refine ⟨fun p hp => hp, hps, ?_⟩
      intro p hp d hd hw hz
      exact hcl p hp (by simp) d hd hw hz
    | cons p0 queue =>
      obtain ⟨new, h1, h2, h3, h4⟩ :=
        expandFold_spec size g p0 ADJACENT_SPACE_DELTAS queue spaces
      have hexp : expandBlanks size g p0 (queue, spaces) =
          (queue ++ new, spaces ++ new) := by
        rw [expandBlanks]
        exact h1
      have hstep : cbsAux size g (fuel + 1) (p0 :: queue) spaces =
          cbsAux size g fuel (queue ++ new) (spaces ++ new) := by
        rw [cbsAux]
        simp only [hexp]
      have hdisj : spaces.Disjoint new := fun a ha hb => (h3 a hb).1 ha
      have hnd' : (spaces ++ new).Nodup :=
        List.nodup_append.mpr ⟨hnd, h2, hdisj⟩
      have hqs' : ∀ p ∈ queue ++ new, p ∈ spaces ++ new := by
        intro p hp
        rcases List.mem_append.mp hp with hp | hp
        · exact List.mem_append_left _ (hqs p (List.mem_cons_of_mem p0 hp))
        · exact List.mem_append_right _ hp
      have hp0s : p0 ∈ spaces := hqs p0 (List.mem_cons_self p0 queue)
      have hcl' : ∀ p ∈ spaces ++ new, p ∉ queue ++ new →
          ∀ d ∈ ADJACENT_SPACE_DELTAS,
          within_board size (p.1 + d.1) (p.2 + d.2) = true →
          cell g (p.1 + d.1) (p.2 + d.2) = 0 →
          (p.1 + d.1, p.2 + d.2) ∈ spaces ++ new := by
        intro p hp hpq d hd hw hz
        have hpq1 : p ∉ queue := fun h => hpq (List.mem_append_left _ h)
        have hpq2 : p ∉ new := fun h => hpq (List.mem_append_right _ h)
        rcases List.mem_append.mp hp with hsp | hnew
        · by_cases hp0 : p = p0
          · subst hp0
            exact h4 d hd hw hz
          · have hnq : p ∉ p0 :: queue := by
              intro h
              rcases List.mem_cons.mp h with h | h
              · exact hp0 h
              · exact hpq1 h
            exact List.mem_append_left _ (hcl p hsp hnq d hd hw hz)
        · exact absurd hnew hpq2
      have hps' : ∀ p ∈ spaces ++ new, P p := by
        intro p hp
        rcases List.mem_append.mp hp with hsp | hnew
        · exact hps p hsp
        · obtain ⟨_, hw, hz, d, hd, rfl⟩ := h3 p hnew
          exact hP p0 d hd (hps p0 hp0s) hw hz
      have hfuel' : (queue ++ new).length +
          (size * size -
            ((spaces ++ new).filter (fun p => within_board size p.1 p.2)).length) ≤
          fuel := by
        have hfn : new.filter (fun p => within_board size p.1 p.2) = new :=
          List.filter_eq_self.mpr (fun q hq => (h3 q hq).2.1)
        have hlen : ((spaces ++ new).filter
            (fun p => within_board size p.1 p.2)).length =
            (spaces.filter (fun p => within_board size p.1 p.2)).length +
              new.length := by
          rw [List.filter_append, List.length_append, hfn]
        have hle : ((spaces ++ new).filter
            (fun p => within_board size p.1 p.2)).length ≤ size * size := by
          apply nodup_inboard_length_le size _ (hnd'.filter _)
          intro p hp
          exact (List.mem_filter.mp hp).2
        have hlen2 : (queue ++ new).length = queue.length + new.length :=
          List.length_append queue new
        have hfuel2 : (queue.length + 1) +
            (size * size -
              (spaces.filter (fun p => within_board size p.1 p.2)).length) ≤
            fuel + 1 := by
          simpa using hfuel
        generalize hN : size * size = N at hlen hle hfuel2 ⊢
        omega
      obtain ⟨c1, c2, c3⟩ := ih (queue ++ new) (spaces ++ new) hnd' hqs' hcl' hps' hfuel'
      rw [hstep]
      refine ⟨?_, c2, c3⟩
      intro p hp
      exact c1 p (List.mem_append_left _ hp)

theorem zeroReach_within (size : Nat) (g : List (List Int)) (p0 p : Pos)
    (h : ZeroReach size g p0 p)
    (hw : within_board size p0.1 p0.2 = true) (hz : cell g p0.1 p0.2 = 0) :
    within_board size p.1 p.2 = true ∧ cell g p.1 p.2 = 0 := by
  induction h with
  | refl => exact ⟨hw, hz⟩
  | step d hd hr hw' hz' ih => exact ⟨hw', hz'⟩

/-- The BFS of `Board._connected_blank_spaces` computes exactly the
4-adjacency closure `ZeroReach` of its starting cell — a set-closure with no
reference to traversal order. -/
theorem connected_blank_spaces_spec (size : Nat) (g : List (List Int))
    (row col : Int)
    (hw : within_board size row col = true) (hz : cell g row col = 0) :
    ∀ p, p ∈ connected_blank_spaces size g row col ↔
      ZeroReach size g (row, col) p := by
  have hsize1 : 1 ≤ size * size := by
    obtain ⟨h1, h2, _, _⟩ := (within_board_iff size row col).mp hw
    have hs : 0 < size := by omega
    calc 1 = 1 * 1 := rfl
      _ ≤ size * size := Nat.mul_le_mul hs hs
  have hfilter : (([(row, col)] : List Pos).filter
      (fun p => within_board size p.1 p.2)).length = 1 := by
    simp [List.filter, hw]
  obtain ⟨c1, c2, c3⟩ := cbsAux_spec size g (ZeroReach size g (row, col))
    (fun p d hd hp hw' hz' => ZeroReach.step d hd hp hw' hz')
    (size * size + 1) [(row, col)] [(row, col)]
    (by simp)
    (fun p hp => hp)
    (by
      intro p hp hnp
      exact absurd hp hnp)
    (by
      intro p hp
      have : p = (row, col) := by simpa using hp
      subst this
      exact ZeroReach.refl)
    (by
      rw [hfilter]
      simp only [List.length_cons, List.length_nil]
      generalize hN : size * size = N at hsize1 ⊢
      omega)
  intro p
  constructor
  · exact c2 p
  · intro hr
    induction hr with
    | refl => exact c1 _ (by simp)
    | step d hd hr' hw' hz' ih => exact c3 _ ih d hd hw' hz'

theorem foldl_preserve {β δ : Type} (Q : β → Prop) (f : β → δ → β) (l : List δ)
    (h : ∀ b a, Q b → Q (f b a)) : ∀ b, Q b → Q (l.foldl f b) := by
  induction l with
  | nil => intro b hb; exact hb
  | cons a l ih => intro b hb; exact ih _ (h b a hb)

theorem npIndex_some_lt {size : Nat} {i : Int} {j : Nat}
    (h : npIndex size i = some j) : j < size := by
  unfold npIndex at h
  split_ifs at h with h1 h2
  · obtain ⟨h1a, h1b⟩ := h1
    have := Option.some_inj.mp h
    omega
  · obtain ⟨h2a, h2b⟩ := h2
    have := Option.some_inj.mp h
    omega

theorem npIndex_of_inbounds {size : Nat} {i : Int} (h0 : 0 ≤ i)
    (h1 : i < (size : Int)) : npIndex size i = some i.toNat := by
  unfold npIndex
  rw [if_pos ⟨h0, h1⟩]

theorem natCast_eq_iff (r : Nat) (x : Int) (hx : 0 ≤ x) :
    ((r : Int) = x) ↔ r = x.toNat := by
  constructor
  · intro h
    omega
  · intro h
    omega

theorem inbounds_within {size : Nat} {r c : Nat} (hr : r < size) (hc : c < size) :
    within_board size (r : Int) (c : Int) = true := by
  rw [within_board_iff]
  refine ⟨Int.natCast_nonneg r, ?_, Int.natCast_nonneg c, ?_⟩ <;> omega

theorem gridWF_setVisNp {size : Nat} {vis : List (List Bool)} (r c : Int)
    (h : gridWF size vis) : gridWF size (setVisNp size vis r c) := by
  unfold setVisNp
  rcases h1 : npIndex size r with _ | i
  · exact h
  · rcases h2 : npIndex size c with _ | j
    · exact h
    · exact gridWF_setCell h i j true (npIndex_some_lt h1)

theorem gridWF_rimStep {size : Nat} {g : List (List Int)} (s : Pos)
    {v : List (List Bool)} (d : Pos) (h : gridWF size v) :
    gridWF size (rimStep size g s v d) := by
  unfold rimStep
  simp only []
  split_ifs with hcond
  · simp only [Bool.and_eq_true, decide_eq_true_eq] at hcond
    obtain ⟨hw, _⟩ := hcond
    obtain ⟨h1, h2, h3, h4⟩ := (within_board_iff _ _ _).mp hw
    exact gridWF_setCell h _ _ true (by omega)
  · exact h

theorem gridWF_revealOne {size : Nat} {g : List (List Int)} (s : Pos)
    {v : List (List Bool)} (h : gridWF size v) :
    gridWF size (revealOne size g v s) := by
  unfold revealOne
  exact foldl_preserve (gridWF size) (rimStep size g s) SURROUNDING_SPACE_DELTAS
    (fun b a hb => gridWF_rimStep s a hb) _ (gridWF_setVisNp s.1 s.2 h)

theorem gridWF_revealSpaces {size : Nat} {g : List (List Int)}
    (spaces : List Pos) {v : List (List Bool)} (h : gridWF size v) :
    gridWF size (revealSpaces size g v spaces) := by
  unfold revealSpaces
  exact foldl_preserve (gridWF size) (revealOne size g) spaces
    (fun b a hb => gridWF_revealOne a hb) _ h

theorem setVisNp_of_within (size : Nat) (vis : List (List Bool)) (s : Pos)
    (hw : within_board size s.1 s.2 = true) :
    setVisNp size vis s.1 s.2 = setCell vis s.1.toNat s.2.toNat true := by
  obtain ⟨h1, h2, h3, h4⟩ := (within_board_iff _ _ _).mp hw
  unfold setVisNp
  rw [npIndex_of_inbounds h1 h2, npIndex_of_inbounds h3 h4]

theorem rimFold_spec (size : Nat) (g : List (List Int)) (s : Pos)
    (ds : List Pos) :
    ∀ v : List (List Bool), gridWF size v → ∀ r c : Nat, r < size → c < size →
      (cellN (ds.foldl (rimStep size g s) v) r c = true ↔
        cellN v r c = true ∨
        ∃ d ∈ ds, ((r : Int), (c : Int)) = ((s.1 + d.1, s.2 + d.2) : Pos) ∧
          0 < cell g (r : Int) (c : Int)) := by
  induction ds with
  | nil =>
    intro v hWF r c hr hc
    simp
  | cons d ds ih =>
    intro v hWF r c hr hc
    rw [List.foldl_cons]
    have hrcw : within_board size (r : Int) (c : Int) = true := inbounds_within hr hc
    by_cases hcond : (within_board size (s.1 + d.1) (s.2 + d.2) &&
        decide (0 < cell g (s.1 + d.1) (s.2 + d.2))) = true
    · have hstep : rimStep size g s v d =
          setCell v (s.1 + d.1).toNat (s.2 + d.2).toNat true := by
        simp only [rimStep]
        rw [if_pos hcond]
      simp only [Bool.and_eq_true, decide_eq_true_eq] at hcond
      obtain ⟨hwb, hpos⟩ := hcond
      obtain ⟨ha1, ha2, ha3, ha4⟩ := (within_board_iff _ _ _).mp hwb
      have hb1 : (s.1 + d.1).toNat < size := by omega
      have hb2 : (s.2 + d.2).toNat < size := by omega
      rw [hstep, ih _ (gridWF_setCell hWF _ _ true hb1) r c hr hc]
      have hcell : cellN (setCell v (s.1 + d.1).toNat (s.2 + d.2).toNat true) r c =
          if r = (s.1 + d.1).toNat ∧ c = (s.2 + d.2).toNat then true
          else cellN v r c :=
        cellN_setCell v _ _ r c true (by rw [hWF.1]; exact hb1)
          (by rw [gridWF_row_length hWF _ hb1]; exact hb2)
      have heq : (r = (s.1 + d.1).toNat ∧ c = (s.2 + d.2).toNat) ↔
          ((r : Int), (c : Int)) = ((s.1 + d.1, s.2 + d.2) : Pos) := by
        rw [Prod.ext_iff]
        simp only []
        rw [natCast_eq_iff r _ ha1, natCast_eq_iff c _ ha3]
      rw [hcell]
      by_cases hrc : r = (s.1 + d.1).toNat ∧ c = (s.2 + d.2).toNat
      · have heq' := heq.mp hrc
        have hpos' : 0 < cell g (r : Int) (c : Int) := by
          have e1 : (r : Int) = s.1 + d.1 := (Prod.ext_iff.mp heq').1
          have e2 : (c : Int) = s.2 + d.2 := (Prod.ext_iff.mp heq').2
          rw [e1, e2]
          exact hpos
        rw [if_pos hrc]
        constructor
        · intro _
          exact Or.inr ⟨d, List.mem_cons_self d ds, heq', hpos'⟩
        · intro _
          exact Or.inl rfl
      · rw [if_neg hrc]
        constructor
        · intro h
          rcases h with h | ⟨d', hd', he', hp'⟩
          · exact Or.inl h
          · exact Or.inr ⟨d', List.mem_cons_of_mem d hd', he', hp'⟩
        · intro h
          rcases h with h | ⟨d', hd', he', hp'⟩
          · exact Or.inl h
          · rcases List.mem_cons.mp hd' with hd' | hd'
            · subst hd'
              exact absurd (heq.mpr he') hrc
            · exact Or.inr ⟨d', hd', he', hp'⟩
    · have hstep : rimStep size g s v d = v := by
        simp only [rimStep]
        rw [if_neg hcond]
      rw [hstep, ih v hWF r c hr hc]
      constructor
      · intro h
        rcases h with h | ⟨d', hd', he', hp'⟩
        · exact Or.inl h
        · exact Or.inr ⟨d', List.mem_cons_of_mem d hd', he', hp'⟩
      · intro h
        rcases h with h | ⟨d', hd', he', hp'⟩
        · exact Or.inl h
        · rcases List.mem_cons.mp hd' with hd' | hd'
          · subst hd'
            exfalso
            apply hcond
            have e1 : s.1 + d'.1 = (r : Int) := (Prod.ext_iff.mp he').1.symm
            have e2 : s.2 + d'.2 = (c : Int) := (Prod.ext_iff.mp he').2.symm
            rw [e1, e2]
            simp only [Bool.and_eq_true, decide_eq_true_eq]
            exact ⟨hrcw, hp'⟩
          · exact Or.inr ⟨d', hd', he', hp'⟩

theorem revealOne_spec (size : Nat) (g : List (List Int)) (s : Pos)
    (hw : within_board size s.1 s.2 = true)
    (v : List (List Bool)) (hWF : gridWF size v) (r c : Nat)
    (hr : r < size) (hc : c < size) :
    cellN (revealOne size g v s) r c = true ↔
      cellN v r c = true ∨ ((r : Int), (c : Int)) = s ∨
      ∃ d ∈ SURROUNDING_SPACE_DELTAS,
        ((r : Int), (c : Int)) = ((s.1 + d.1, s.2 + d.2) : Pos) ∧
        0 < cell g (r : Int) (c : Int) := by
  obtain ⟨h1, h2, h3, h4⟩ := (within_board_iff _ _ _).mp hw
  have hb1 : s.1.toNat < size := by omega
  have hb2 : s.2.toNat < size := by omega
  unfold revealOne
  rw [setVisNp_of_within size v s hw]
  rw [rimFold_spec size g s SURROUNDING_SPACE_DELTAS _
    (gridWF_setCell hWF _ _ true hb1) r c hr hc]
  have hcell : cellN (setCell v s.1.toNat s.2.toNat true) r c =
      if r = s.1.toNat ∧ c = s.2.toNat then true else cellN v r c :=
    cellN_setCell v _ _ r c true (by rw [hWF.1]; exact hb1)
      (by rw [gridWF_row_length hWF _ hb1]; exact hb2)
  have heq : (r = s.1.toNat ∧ c = s.2.toNat) ↔ ((r : Int), (c : Int)) = s := by
    rw [Prod.ext_iff]
    simp only []
    rw [natCast_eq_iff r _ h1, natCast_eq_iff c _ h3]
  rw [hcell]
  by_cases hrc : r = s.1.toNat ∧ c = s.2.toNat
  · rw [if_pos hrc]
    constructor
    · intro _
      exact Or.inr (Or.inl (heq.mp hrc))
    · intro _
      exact Or.inl rfl
  · rw [if_neg hrc]
    constructor
    · intro h
      rcases h with h | h
      · exact Or.inl h
      · exact Or.inr (Or.inr h)
    · intro h
      rcases h with h | h | h
      · exact Or.inl h
      · exact absurd (heq.mpr h) hrc
      · exact Or.inr h

theorem cellN_setCell_true_mono (g : List (List Bool)) (r c r' c' : Nat)
    (h : cellN g r' c' = true) : cellN (setCell g r c true) r' c' = true := by
  by_cases hrc : r' = r ∧ c' = c
  · obtain ⟨rfl, rfl⟩ := hrc
    by_cases hrow : r' < g.length
    · by_cases hcol : c' < (g.getD r' []).length
      · rw [cellN_setCell_self g r' c' true hrow hcol]
      · unfold cellN setCell
        rw [getD_set_oob _ c' true (Nat.le_of_not_lt hcol),
          getD_set_same g r' _ [] hrow]
        exact h
    · unfold cellN setCell
      rw [List.set_eq_of_length_le (Nat.le_of_not_lt hrow)]
      exact h
  · rw [cellN_setCell_ne g r c r' c' true hrc]
    exact h

theorem cellN_setVisNp_mono (size : Nat) (vis : List (List Bool)) (a b : Int)
    (r c : Nat) (h : cellN vis r c = true) :
    cellN (setVisNp size vis a b) r c = true := by
  unfold setVisNp
  rcases npIndex size a with _ | i
  · exact h
  · rcases npIndex size b with _ | j
    · exact h
    · exact cellN_setCell_true_mono vis i j r c h

theorem cellN_rimStep_mono (size : Nat) (g : List (List Int)) (s : Pos)
    (v : List (List Bool)) (d : Pos) (r c : Nat)
    (h : cellN v r c = true) : cellN (rimStep size g s v d) r c = true := by
  unfold rimStep
  simp only []
  split_ifs
  · exact cellN_setCell_true_mono v _ _ r c h
  · exact h

theorem cellN_revealOne_mono (size : Nat) (g : List (List Int)) (s : Pos)
    (v : List (List Bool)) (r c : Nat)
    (h : cellN v r c = true) : cellN (revealOne size g v s) r c = true := by
  unfold revealOne
  exact foldl_preserve (fun v => cellN v r c = true) (rimStep size g s)
    SURROUNDING_SPACE_DELTAS (fun b a hb => cellN_rimStep_mono size g s b a r c hb)
    _ (cellN_setVisNp_mono size v s.1 s.2 r c h)

theorem cellN_revealSpaces_mono (size : Nat) (g : List (List Int))
    (spaces : List Pos) (v : List (List Bool)) (r c : Nat)
    (h : cellN v r c = true) :
    cellN (revealSpaces size g v spaces) r c = true := by
  unfold revealSpaces
  exact foldl_preserve (fun v => cellN v r c = true) (revealOne size g) spaces
    (fun b a hb => cellN_revealOne_mono size g a b r c hb) _ h

theorem revealSpaces_spec (size : Nat) (g : List (List Int)) :
    ∀ spaces : List Pos,
      (∀ p ∈ spaces, within_board size p.1 p.2 = true) →
      ∀ v, gridWF size v → ∀ r c : Nat, r < size → c < size →
        (cellN (revealSpaces size g v spaces) r c = true ↔
          cellN v r c = true ∨ ((r : Int), (c : Int)) ∈ spaces ∨
          ∃ p ∈ spaces, ∃ d ∈ SURROUNDING_SPACE_DELTAS,
            ((r : Int), (c : Int)) = ((p.1 + d.1, p.2 + d.2) : Pos) ∧
            0 < cell g (r : Int) (c : Int)) := by
  intro spaces
  induction spaces with
  | nil =>
    intro hsp v hWF r c hr hc
    simp [revealSpaces]
  | cons p ps ih =>
    intro hsp v hWF r c hr hc
    have hwp : within_board size p.1 p.2 = true := hsp p (List.mem_cons_self p ps)
    have hsp' : ∀ q ∈ ps, within_board size q.1 q.2 = true :=
      fun q hq => hsp q (List.mem_cons_of_mem p hq)
    have hcons : revealSpaces size g v (p :: ps) =
        revealSpaces size g (revealOne size g v p) ps := by
      unfold revealSpaces
      rw [List.foldl_cons]
    rw [hcons, ih hsp' _ (gridWF_revealOne p hWF) r c hr hc,
      revealOne_spec size g p hwp v hWF r c hr hc]
    simp only [List.mem_cons, exists_eq_or_imp]
    constructor
    · rintro ((h | h | h) | h | h)
      · exact Or.inl h
      · exact Or.inr (Or.inl (Or.inl h))
      · exact Or.inr (Or.inr (Or.inl h))
      · exact Or.inr (Or.inl (Or.inr h))
      · exact Or.inr (Or.inr (Or.inr h))
    · rintro (h | (h | h) | (h | h))
      · exact Or.inl (Or.inl h)
      · exact Or.inl (Or.inr (Or.inl h))
      · exact Or.inr (Or.inl h)
      · exact Or.inl (Or.inr (Or.inr h))
      · exact Or.inr (Or.inr h)

/-- A fixed 3×3 board with one mine in a corner and a zero-region, used to
exercise the flood-fill theorems on concrete inputs. -/
def zeroBoard : Board :=
  { board_size := 3
    num_mines := 1
    board := [[0, 0, 0], [0, 1, 1], [0, 1, -1]]
    visibility := constGrid 3 false
    flags := constGrid 3 false }

/-- C1: revealing an in-bounds zero-valued cell reveals exactly the previously
revealed cells, plus the 4-adjacency-connected zero region of the clicked cell
(the order-free closure `ZeroReach`), plus every in-bounds positive-valued
cell that is an 8-neighbour of some cell of that region; no mine cell changes
its revealed bit.  Because the revealed set is characterised by the
traversal-order-free closure alone, any BFS order yields the same set. -/
theorem C1_reveal_zero (B : Board) (r c : Nat) (hWF : B.WF)
    (hr : r < B.board_size) (hc : c < B.board_size)
    (hzero : cellN B.board r c = 0) :
    ∃ B' s, B.step (r : Int) (c : Int) false = some (B', s) ∧
      B'.board = B.board ∧ B'.flags = B.flags ∧
      B'.board_size = B.board_size ∧ B'.num_mines = B.num_mines ∧
      (∀ r' c' : Nat, r' < B.board_size → c' < B.board_size →
        (cellN B'.visibility r' c' = true ↔
          cellN B.visibility r' c' = true ∨
          ZeroReach B.board_size B.board ((r : Int), (c : Int))
            ((r' : Int), (c' : Int)) ∨
          (∃ q : Pos, ZeroReach B.board_size B.board ((r : Int), (c : Int)) q ∧
            (∃ d ∈ SURROUNDING_SPACE_DELTAS,
              ((r' : Int), (c' : Int)) = ((q.1 + d.1, q.2 + d.2) : Pos)) ∧
            0 < cellN B.board r' c'))) ∧
      (∀ r' c' : Nat, r' < B.board_size → c' < B.board_size →
        cellN B.board r' c' = -1 →
        cellN B'.visibility r' c' = cellN B.visibility r' c') ∧
      s = queryStatus B' := by
  have hw : within_board B.board_size (r : Int) (c : Int) = true :=
    inbounds_within hr hc
  have hz : cell B.board (r : Int) (c : Int) = 0 := by
    rw [cell_natCast]
    exact hzero
  have hchar := connected_blank_spaces_spec B.board_size B.board (r : Int)
    (c : Int) hw hz
  have hsp : ∀ p ∈ connected_blank_spaces B.board_size B.board (r : Int) (c : Int),
      within_board B.board_size p.1 p.2 = true := by
    intro p hp
    exact (zeroReach_within _ _ _ p ((hchar p).mp hp) hw hz).1
  have hvisiff : ∀ r' c' : Nat, r' < B.board_size → c' < B.board_size →
      (cellN (revealSpaces B.board_size B.board B.visibility
          (connected_blank_spaces B.board_size B.board (r : Int) (c : Int)))
          r' c' = true ↔
        cellN B.visibility r' c' = true ∨
        ZeroReach B.board_size B.board ((r : Int), (c : Int))
          ((r' : Int), (c' : Int)) ∨
        (∃ q : Pos, ZeroReach B.board_size B.board ((r : Int), (c : Int)) q ∧
          (∃ d ∈ SURROUNDING_SPACE_DELTAS,
            ((r' : Int), (c' : Int)) = ((q.1 + d.1, q.2 + d.2) : Pos)) ∧
          0 < cellN B.board r' c')) := by
    intro r' c' hr' hc'
    rw [revealSpaces_spec B.board_size B.board _ hsp B.visibility hWF.2.1 r' c'
      hr' hc']
    constructor
    · rintro (h | h | ⟨p, hp, d, hd, he, hpos⟩)
      · exact Or.inl h
      · exact Or.inr (Or.inl ((hchar _).mp h))
      · refine Or.inr (Or.inr ⟨p, (hchar p).mp hp, ⟨d, hd, he⟩, ?_⟩)
        rw [← cell_natCast]
        exact hpos
    · rintro (h | h | ⟨q, hq, ⟨d, hd, he⟩, hpos⟩)
      · exact Or.inl h
      · exact Or.inr (Or.inl ((hchar _).mpr h))
      · refine Or.inr (Or.inr ⟨q, (hchar q).mpr hq, d, hd, he, ?_⟩)
        rw [cell_natCast]
        exact hpos
  refine ⟨_, _, step_zero_branch B r c hr hc hzero, rfl, rfl, rfl, rfl,
    hvisiff, ?_, rfl⟩
  intro r' c' hr' hc' hm
  show cellN (revealSpaces B.board_size B.board B.visibility
      (connected_blank_spaces B.board_size B.board (r : Int) (c : Int)))
      r' c' = cellN B.visibility r' c'
  by_cases hv : cellN B.visibility r' c' = true
  · rw [(hvisiff r' c' hr' hc').mpr (Or.inl hv), hv]
  · have hfalse : ¬ cellN (revealSpaces B.board_size B.board B.visibility
        (connected_blank_spaces B.board_size B.board (r : Int) (c : Int)))
        r' c' = true := by
      intro h
      rcases (hvisiff r' c' hr' hc').mp h with h' | h' | ⟨q, hq, hd, hpos⟩
      · exact hv h'
      · have hzc := (zeroReach_within _ _ _ _ h' hw hz).2
        rw [cell_natCast] at hzc
        rw [hzc] at hm
        exact absurd hm (by decide)
      · rw [hm] at hpos
        exact absurd hpos (by decide)
    rw [Bool.eq_false_iff.mpr hfalse, Bool.eq_false_iff.mpr hv]

/-- Witness for C1 on `zeroBoard`, revealing the zero cell (0, 0). -/
theorem C1_reveal_zero_witness :
    ∃ B' s, zeroBoard.step ((0 : Nat) : Int) ((0 : Nat) : Int) false = some (B', s) ∧
      B'.board = zeroBoard.board ∧ B'.flags = zeroBoard.flags ∧
      B'.board_size = zeroBoard.board_size ∧ B'.num_mines = zeroBoard.num_mines ∧
      (∀ r' c' : Nat, r' < zeroBoard.board_size → c' < zeroBoard.board_size →
        (cellN B'.visibility r' c' = true ↔
          cellN zeroBoard.visibility r' c' = true ∨
          ZeroReach zeroBoard.board_size zeroBoard.board
            (((0 : Nat) : Int), ((0 : Nat) : Int)) ((r' : Int), (c' : Int)) ∨
          (∃ q : Pos, ZeroReach zeroBoard.board_size zeroBoard.board
              (((0 : Nat) : Int), ((0 : Nat) : Int)) q ∧
            (∃ d ∈ SURROUNDING_SPACE_DELTAS,
              ((r' : Int), (c' : Int)) = ((q.1 + d.1, q.2 + d.2) : Pos)) ∧
            0 < cellN zeroBoard.board r' c'))) ∧
      (∀ r' c' : Nat, r' < zeroBoard.board_size → c' < zeroBoard.board_size →
        cellN zeroBoard.board r' c' = -1 →
        cellN B'.visibility r' c' = cellN zeroBoard.visibility r' c') ∧
      s = queryStatus B' :=
  C1_reveal_zero zeroBoard 0 0 (by decide) (by decide) (by decide) (by decide)

/-- C10: flags do not protect non-mine cells.  Revealing an in-bounds flagged
cell with a non-negative value still reveals it, and the flag bit survives, so
the cell ends up simultaneously revealed and flagged. -/
theorem C10_flag_no_protection (B : Board) (r c : Nat) (hWF : B.WF)
    (hr : r < B.board_size) (hc : c < B.board_size)
    (hcell : 0 ≤ cellN B.board r c) (hflag : cellN B.flags r c = true) :
    ∃ B' s, B.step (r : Int) (c : Int) false = some (B', s) ∧
      cellN B'.visibility r c = true ∧ B'.flags = B.flags ∧
      cellN B'.flags r c = true := by
  obtain ⟨hvr, hvc⟩ := vis_bounds hWF hr hc
  rcases hcell.lt_or_eq with hpos | heq
  · refine ⟨_, _, step_pos_branch B r c hr hc hpos, ?_, rfl, hflag⟩
    show cellN (setCell B.visibility r c true) r c = true
    exact cellN_setCell_self _ r c true hvr hvc
  · have hzero : cellN B.board r c = 0 := heq.symm
    have hw : within_board B.board_size (r : Int) (c : Int) = true :=
      inbounds_within hr hc
    have hz : cell B.board (r : Int) (c : Int) = 0 := by
      rw [cell_natCast]
      exact hzero
    have hchar := connected_blank_spaces_spec B.board_size B.board (r : Int)
      (c : Int) hw hz
    have hsp : ∀ p ∈ connected_blank_spaces B.board_size B.board (r : Int) (c : Int),
        within_board B.board_size p.1 p.2 = true := by
      intro p hp
      exact (zeroReach_within _ _ _ p ((hchar p).mp hp) hw hz).1
    refine ⟨_, _, step_zero_branch B r c hr hc hzero, ?_, rfl, hflag⟩
    show cellN (revealSpaces B.board_size B.board B.visibility
        (connected_blank_spaces B.board_size B.board (r : Int) (c : Int)))
        r c = true
    rw [revealSpaces_spec B.board_size B.board _ hsp B.visibility hWF.2.1 r c hr hc]
    exact Or.inr (Or.inl ((hchar _).mpr ZeroReach.refl))

/-- The 3×3 board of `testBoard` with a flag on the numbered cell (0, 0). -/
def testBoardNumFlagged : Board :=
  { board_size := 3
    num_mines := 1
    board := [[1, 1, 1], [1, -1, 1], [1, 1, 1]]
    visibility := constGrid 3 false
    flags := [[true, false, false], [false, false, false], [false, false, false]] }

/-- Witness for C10 on `testBoardNumFlagged`: revealing the flagged numbered
cell (0, 0) reveals it while the flag stays set. -/
theorem C10_flag_no_protection_witness :
    ∃ B' s, testBoardNumFlagged.step ((0 : Nat) : Int) ((0 : Nat) : Int) false =
        some (B', s) ∧
      cellN B'.visibility 0 0 = true ∧ B'.flags = testBoardNumFlagged.flags ∧
      cellN B'.flags 0 0 = true :=
  C10_flag_no_protection testBoardNumFlagged 0 0 (by decide) (by decide)
    (by decide) (by decide) (by decide)

theorem npIndex_none {size : Nat} {i : Int}
    (h : i < -(size : Int) ∨ (size : Int) ≤ i) : npIndex size i = none := by
  rcases h with h | h <;>
    (unfold npIndex; rw [if_neg (by omega), if_neg (by omega)])

theorem step_none_left (B : Board) (row col : Int) (flag : Bool)
    (h : npIndex B.board_size row = none) : B.step row col flag = none := by
  unfold Board.step
  rw [h]

theorem step_none_right (B : Board) (row col : Int) (flag : Bool)
    (h : npIndex B.board_size col = none) : B.step row col flag = none := by
  unfold Board.step
  rw [h]
  cases hrow : npIndex B.board_size row <;> rfl

/-- Counterexample to C7 as stated: the coordinate `-1` is outside
`[0, size)`, yet `step` neither fails nor aborts — numpy's negative indexing
wraps it to the last row, the flag of cell (2, 0) of `testBoard` is toggled,
and the normal status `0` (Ongoing) is returned. -/
theorem C7_counterexample :
    ∃ B' : Board, testBoard.step (-1) 0 true = some (B', 0) ∧
      cellN B'.flags 2 0 = true ∧ cellN testBoard.flags 2 0 = false := by
  refine ⟨{ testBoard with flags := (setCell testBoard.flags 2 0
      (! cell testBoard.flags ((2 : Nat) : Int) ((0 : Nat) : Int))) }, ?_, ?_, ?_⟩
  · rfl
  · rfl
  · rfl

/-- C7 (amended): a `step` whose coordinates fall outside `[-size, size)` on
either axis aborts with an uncaught `IndexError` (modelled `none`) before any
mutation; coordinates in `[-size, -1]` are instead wrapped by numpy's negative
indexing and the move proceeds normally on the wrapped cell (see the
counterexample). -/
theorem C7_index_error (B : Board) (row col : Int) (flag : Bool)
    (h : row < -(B.board_size : Int) ∨ (B.board_size : Int) ≤ row ∨
      col < -(B.board_size : Int) ∨ (B.board_size : Int) ≤ col) :
    B.step row col flag = none := by
  rcases h with h | h | h | h
  · exact step_none_left B row col flag (npIndex_none (Or.inl h))
  · exact step_none_left B row col flag (npIndex_none (Or.inr h))
  · exact step_none_right B row col flag (npIndex_none (Or.inl h))
  · exact step_none_right B row col flag (npIndex_none (Or.inr h))

/-- Witness for the amended C7 on `testBoard` at the out-of-range row 5. -/
theorem C7_index_error_witness : testBoard.step 5 0 false = none :=
  C7_index_error testBoard 5 0 false (by decide)

theorem step_some_eq (B : Board) (row col : Int) (a b : Nat)
    (hrow : npIndex B.board_size row = some a)
    (hcol : npIndex B.board_size col = some b) (flag : Bool) :
    B.step row col flag =
      (if flag then
        some ({ B with flags := (setCell B.flags a b
            (! cell B.flags (a : Int) (b : Int))) },
          queryStatus { B with flags := (setCell B.flags a b
            (! cell B.flags (a : Int) (b : Int))) })
      else if 0 < cell B.board (a : Int) (b : Int) then
        some ({ B with visibility := setCell B.visibility a b true },
          queryStatus { B with visibility := setCell B.visibility a b true })
      else if cell B.board (a : Int) (b : Int) = 0 then
        some ({ B with visibility := (revealSpaces B.board_size B.board
            B.visibility (connected_blank_spaces B.board_size B.board row col)) },
          queryStatus { B with visibility := (revealSpaces B.board_size B.board
            B.visibility (connected_blank_spaces B.board_size B.board row col)) })
      else if cell B.flags (a : Int) (b : Int) then some (B, queryStatus B)
      else some ({ B with visibility := setCell B.visibility a b true }, -1)) := by
  unfold Board.step
  rw [hrow, hcol]

theorem step_visibility_cases (B : Board) (row col : Int) (flag : Bool)
    (B' : Board) (s : Int) (h : B.step row col flag = some (B', s)) :
    B'.visibility = B.visibility ∨
    (∃ a b : Nat, B'.visibility = setCell B.visibility a b true) ∨
    (∃ spaces : List Pos,
      B'.visibility = revealSpaces B.board_size B.board B.visibility spaces) := by
  cases hrow : npIndex B.board_size row with
  | none =>
    rw [step_none_left B row col flag hrow] at h
    exact Option.noConfusion h
  | some a =>
    cases hcol : npIndex B.board_size col with
    | none =>
      rw [step_none_right B row col flag hcol] at h
      exact Option.noConfusion h
    | some b =>
      rw [step_some_eq B row col a b hrow hcol flag] at h
      split_ifs at h with h1 h2 h3 h4 <;>
        rw [Option.some_inj, Prod.mk.injEq] at h
      · exact Or.inl (by rw [← h.1])
      · exact Or.inr (Or.inl ⟨a, b, by rw [← h.1]⟩)
      · exact Or.inr (Or.inr
          ⟨connected_blank_spaces B.board_size B.board row col, by rw [← h.1]⟩)
      · exact Or.inl (by rw [← h.1])
      · exact Or.inr (Or.inl ⟨a, b, by rw [← h.1]⟩)

/-- The 3×3 board of `testBoard` with cell (0, 0) already revealed. -/
def testBoardRevealed : Board :=
  { board_size := 3
    num_mines := 1
    board := [[1, 1, 1], [1, -1, 1], [1, 1, 1]]
    visibility := [[true, false, false], [false, false, false], [false, false, false]]
    flags := constGrid 3 false }

/-- Counterexample to C6 as stated: cell (0, 0) of `testBoardRevealed` is
revealed, yet a flag move on it still toggles its flag bit to `true` — a
revealed cell can be flagged by a subsequent `step` call. -/
theorem C6_counterexample :
    cellN testBoardRevealed.visibility 0 0 = true ∧
    ∃ B' s, testBoardRevealed.step 0 0 true = some (B', s) ∧
      cellN B'.flags 0 0 = true := by
  refine ⟨rfl, { testBoardRevealed with flags := (setCell testBoardRevealed.flags
      0 0 (! cell testBoardRevealed.flags ((0 : Nat) : Int) ((0 : Nat) : Int))) },
    queryStatus { testBoardRevealed with flags := (setCell testBoardRevealed.flags
      0 0 (! cell testBoardRevealed.flags ((0 : Nat) : Int) ((0 : Nat) : Int))) },
    ?_, ?_⟩
  · rfl
  · rfl

/-- C6 (amended): every successful `step` call only ever turns revealed bits
from `false` to `true` (the revealed set grows monotonically); the second half
of the original claim is dropped, because a flag move toggles the flag of a
revealed cell exactly as it does a hidden one (see the counterexample). -/
theorem C6_revealed_monotone (B : Board) (row col : Int) (flag : Bool)
    (B' : Board) (s : Int) (h : B.step row col flag = some (B', s)) :
    ∀ r c : Nat, cellN B.visibility r c = true → cellN B'.visibility r c = true := by
  rcases step_visibility_cases B row col flag B' s h with hv | ⟨a, b, hv⟩ | ⟨sp, hv⟩
  · intro r c hrc
    rw [hv]
    exact hrc
  · intro r c hrc
    rw [hv]
    exact cellN_setCell_true_mono _ a b r c hrc
  · intro r c hrc
    rw [hv]
    exact cellN_revealSpaces_mono _ _ sp _ r c hrc

/-- Witness for the amended C6: a losing reveal on `testBoardRevealed` keeps
the already revealed cell (0, 0) revealed. -/
theorem C6_revealed_monotone_witness :
    testBoardRevealed.step ((1 : Nat) : Int) ((1 : Nat) : Int) false =
      some ({ testBoardRevealed with visibility :=
        (setCell testBoardRevealed.visibility 1 1 true) }, -1) ∧
    cellN ({ testBoardRevealed with visibility :=
      (setCell testBoardRevealed.visibility 1 1 true) } : Board).visibility 0 0 = true :=
  ⟨by rfl, C6_revealed_monotone testBoardRevealed ((1 : Nat) : Int)
    ((1 : Nat) : Int) false _ (-1) (by rfl) 0 0 (by rfl)⟩

theorem allPos_mem (size : Nat) (p : Nat × Nat) :
    p ∈ allPos size ↔ p.1 < size ∧ p.2 < size := by
  cases p with
  | mk r c =>
    simp only [allPos, List.mem_flatMap, List.mem_map, List.mem_range,
      Prod.mk.injEq]
    constructor
    · rintro ⟨a, ha, b, hb, rfl, rfl⟩
      exact ⟨ha, hb⟩
    · rintro ⟨hr, hc⟩
      exact ⟨r, hr, c, hc, rfl, rfl⟩

theorem allPos_nodup (size : Nat) : (allPos size).Nodup := by
  apply List.nodup_flatMap.mpr
  refine ⟨?_, ?_⟩
  · intro r _
    exact (List.nodup_range _).map (fun c c' h => (Prod.mk.injEq _ _ _ _).mp h |>.2)
  · apply List.Pairwise.imp ?_ (List.pairwise_lt_range size)
    intro a b hab
    intro x hx hy
    obtain ⟨c, _, rfl⟩ := List.mem_map.mp hx
    obtain ⟨c', _, h⟩ := List.mem_map.mp hy
    obtain ⟨h1, _⟩ := (Prod.mk.injEq _ _ _ _).mp h
    omega

theorem gridWF_constGrid {α : Type} (size : Nat) (v : α) :
    gridWF size (constGrid size v) := by
  refine ⟨by simp [constGrid], ?_⟩
  intro row hrow
  rw [List.eq_of_mem_replicate hrow]
  exact List.length_replicate size v

theorem cellN_constGrid {α : Type} [Inhabited α] (size : Nat) (v : α)
    (r c : Nat) (hr : r < size) (hc : c < size) :
    cellN (constGrid size v) r c = v := by
  unfold cellN constGrid
  rw [List.getD_eq_getElem?_getD (List.replicate size (List.replicate size v)) r []]
  rw [List.getElem?_replicate_of_lt hr]
  simp only [Option.getD_some]
  rw [List.getD_eq_getElem?_getD, List.getElem?_replicate_of_lt hc]
  rfl

/-- Position `(r, c)` carries a mine of the sample `locs`: some sampled flat
index maps to it under `(f / size, f % size)`. -/
def mineAt (size : Nat) (locs : List Nat) (r c : Nat) : Prop :=
  ∃ f ∈ locs, r = f / size ∧ c = f % size

instance (size : Nat) (locs : List Nat) (r c : Nat) :
    Decidable (mineAt size locs r c) := by
  unfold mineAt
  infer_instance

/-- The brute-force recount the specification demands: the number of the up to
8 Moore neighbours of `(r, c)` that are inside `[0, size)²` and carry a mine
of the sample. -/
def mooreMineCount (size : Nat) (locs : List Nat) (r c : Nat) : Nat :=
  (SURROUNDING_SPACE_DELTAS.filter (fun d =>
    within_board size ((r : Int) + d.1) ((c : Int) + d.2) &&
    decide (mineAt size locs ((r : Int) + d.1).toNat ((c : Int) + d.2).toNat))).length

theorem place_fold_spec (size : Nat) (hsize : 0 < size) :
    ∀ (locs : List Nat) (g : List (List Int)), gridWF size g →
      (∀ f ∈ locs, f < size * size) →
      gridWF size (locs.foldl (fun g f => setCell g (f / size) (f % size) (-1)) g) ∧
      ∀ r c : Nat, r < size → c < size →
        cellN (locs.foldl (fun g f => setCell g (f / size) (f % size) (-1)) g) r c =
          if mineAt size locs r c then -1 else cellN g r c := by
  intro locs
  induction locs with
  | nil =>
    intro g hWF _
    refine ⟨hWF, ?_⟩
    intro r c _ _
    simp [mineAt]
  | cons f fs ih =>
    intro g hWF hlt
    have hf2 : f < size * size := hlt f (List.mem_cons_self f fs)
    have hfr : f / size < size := Nat.div_lt_of_lt_mul hf2
    have hfc : f % size < size := Nat.mod_lt f hsize
    have hWF' : gridWF size (setCell g (f / size) (f % size) (-1)) :=
      gridWF_setCell hWF _ _ _ hfr
    obtain ⟨ih1, ih2⟩ := ih (setCell g (f / size) (f % size) (-1)) hWF'
      (fun f' hf' => hlt f' (List.mem_cons_of_mem f hf'))
    rw [List.foldl_cons]
    refine ⟨ih1, ?_⟩
    intro r c hr hc
    rw [ih2 r c hr hc]
    have hcell : cellN (setCell g (f / size) (f % size) (-1)) r c =
        if r = f / size ∧ c = f % size then -1 else cellN g r c :=
      cellN_setCell g _ _ r c _ (by rw [hWF.1]; exact hfr)
        (by rw [gridWF_row_length hWF _ hfr]; exact hfc)
    by_cases h1 : mineAt size fs r c
    · rw [if_pos h1, if_pos]
      obtain ⟨f', hf', he⟩ := h1
      exact ⟨f', List.mem_cons_of_mem f hf', he⟩
    · rw [if_neg h1, hcell]
      by_cases h2 : r = f / size ∧ c = f % size
      · rw [if_pos h2, if_pos ⟨f, List.mem_cons_self f fs, h2⟩]
      · rw [if_neg h2, if_neg]
        rintro ⟨f', hf', he⟩
        rcases List.mem_cons.mp hf' with hf' | hf'
        · subst hf'
          exact h2 he
        · exact h1 ⟨f', hf', he⟩

theorem place_mines_spec (size : Nat) (hsize : 0 < size) (locs : List Nat)
    (hlocs : ∀ f ∈ locs, f < size * size) :
    gridWF size (place_mines size locs) ∧
    ∀ r c : Nat, r < size → c < size →
      cellN (place_mines size locs) r c =
        if mineAt size locs r c then -1 else 0 := by
  obtain ⟨h1, h2⟩ := place_fold_spec size hsize locs (constGrid size 0)
    (gridWF_constGrid size 0) hlocs
  refine ⟨h1, ?_⟩
  intro r c hr hc
  rw [place_mines, h2 r c hr hc, cellN_constGrid size 0 r c hr hc]

theorem num_mines_surrounding_eq (size : Nat) (g : List (List Int)) (r c : Int) :
    num_mines_surrounding size g r c =
      (((SURROUNDING_SPACE_DELTAS.filter (fun d =>
        within_board size (r + d.1) (c + d.2) &&
        (cell g (r + d.1) (c + d.2) == -1))).length : Nat) : Int) := by
  unfold num_mines_surrounding
  have key : ∀ (l : List Pos) (n : Int),
      l.foldl (fun mines d =>
        if within_board size (r + d.1) (c + d.2) &&
          (cell g (r + d.1) (c + d.2) == -1)
        then mines + 1 else mines) n =
      n + ((l.filter (fun d =>
        within_board size (r + d.1) (c + d.2) &&
        (cell g (r + d.1) (c + d.2) == -1))).length : Int) := by
    intro l
    induction l with
    | nil =>
      intro n
      simp
    | cons d ds ihl =>
      intro n
      rw [List.foldl_cons, List.filter_cons]
      by_cases hd : (within_board size (r + d.1) (c + d.2) &&
          (cell g (r + d.1) (c + d.2) == -1)) = true
      · rw [if_pos hd, if_pos hd, ihl]
        simp only [List.length_cons]
        push_cast
        ring
      · rw [if_neg hd, if_neg hd, ihl]
  rw [key]
  simp

theorem num_mines_surrounding_nonneg (size : Nat) (g : List (List Int))
    (r c : Int) : 0 ≤ num_mines_surrounding size g r c := by
  rw [num_mines_surrounding_eq]
  exact Int.natCast_nonneg _

theorem num_mines_surrounding_congr (size : Nat) (g g' : List (List Int))
    (r c : Int)
    (h : ∀ a b : Int, within_board size a b = true →
      ((cell g a b == -1) = (cell g' a b == -1))) :
    num_mines_surrounding size g r c = num_mines_surrounding size g' r c := by
  unfold num_mines_surrounding
  apply List.foldl_ext
  intro n d _
  by_cases hw : within_board size (r + d.1) (c + d.2) = true
  · rw [h _ _ hw]
  · have hw' : within_board size (r + d.1) (c + d.2) = false :=
      Bool.eq_false_iff.mpr hw
    rw [hw']
    simp

theorem mine_beq_congr {size : Nat} {g g0 : List (List Int)}
    (hiff : ∀ a b : Int, within_board size a b = true →
      (cell g a b = -1 ↔ cell g0 a b = -1)) :
    ∀ a b : Int, within_board size a b = true →
      ((cell g a b == -1) = (cell g0 a b == -1)) := by
  intro a b h
  rw [Bool.eq_iff_iff, beq_iff_eq, beq_iff_eq]
  exact hiff a b h

theorem compute_fold_spec (size : Nat) (g0 : List (List Int)) :
    ∀ (ps : List (Nat × Nat)) (g : List (List Int)),
      gridWF size g → ps.Nodup →
      (∀ p ∈ ps, p.1 < size ∧ p.2 < size) →
      (∀ a b : Int, within_board size a b = true →
        (cell g a b = -1 ↔ cell g0 a b = -1)) →
      gridWF size (ps.foldl (countStep size) g) ∧
      (∀ a b : Int, within_board size a b = true →
        (cell (ps.foldl (countStep size) g) a b = -1 ↔ cell g0 a b = -1)) ∧
      (∀ p ∈ ps,
        cellN (ps.foldl (countStep size) g) p.1 p.2 =
          if cell g0 (p.1 : Int) (p.2 : Int) = -1 then cellN g p.1 p.2
          else num_mines_surrounding size g0 (p.1 : Int) (p.2 : Int)) ∧
      (∀ p : Nat × Nat, p ∉ ps →
        cellN (ps.foldl (countStep size) g) p.1 p.2 = cellN g p.1 p.2) := by
  intro ps
  induction ps with
  | nil =>
    intro g hWF _ _ hequiv
    exact ⟨hWF, hequiv, by simp, fun p _ => rfl⟩
  | cons p ps ihp =>
    intro g hWF hnd hbounds hequiv
    obtain ⟨hp1, hp2⟩ := hbounds p (List.mem_cons_self p ps)
    have hwp : within_board size (p.1 : Int) (p.2 : Int) = true :=
      inbounds_within hp1 hp2
    have hpn : p ∉ ps := (List.nodup_cons.mp hnd).1
    have hnd' : ps.Nodup := (List.nodup_cons.mp hnd).2
    have hbounds' : ∀ q ∈ ps, q.1 < size ∧ q.2 < size :=
      fun q hq => hbounds q (List.mem_cons_of_mem p hq)
    rw [List.foldl_cons]
    by_cases hm : cell g (p.1 : Int) (p.2 : Int) = -1
    · have hstep : countStep size g p = g := by
        unfold countStep
        rw [if_neg (fun h => h hm)]
      rw [hstep]
      obtain ⟨c1, c2, c3, c4⟩ := ihp g hWF hnd' hbounds' hequiv
      refine ⟨c1, c2, ?_, ?_⟩
      · intro q hq
        rcases List.mem_cons.mp hq with rfl | hq
        · rw [c4 q hpn, if_pos ((hequiv _ _ hwp).mp hm)]
        · exact c3 q hq
      · intro q hq
        exact c4 q (fun h => hq (List.mem_cons_of_mem p h))
    · have hstep : countStep size g p =
          setCell g p.1 p.2 (num_mines_surrounding size g (p.1 : Int) (p.2 : Int)) := by
        unfold countStep
        rw [if_pos hm]
      have hrowlen : (g.getD p.1 []).length = size := gridWF_row_length hWF p.1 hp1
      have hglen : p.1 < g.length := by rw [hWF.1]; exact hp1
      have hclen : p.2 < (g.getD p.1 []).length := by rw [hrowlen]; exact hp2
      have hWF' : gridWF size (setCell g p.1 p.2
          (num_mines_surrounding size g (p.1 : Int) (p.2 : Int))) :=
        gridWF_setCell hWF _ _ _ hp1
      have hequiv' : ∀ a b : Int, within_board size a b = true →
          (cell (setCell g p.1 p.2
            (num_mines_surrounding size g (p.1 : Int) (p.2 : Int))) a b = -1 ↔
            cell g0 a b = -1) := by
        intro a b hab
        obtain ⟨ha1, ha2, hb1, hb2⟩ := (within_board_iff size a b).mp hab
        have hview : cell (setCell g p.1 p.2
            (num_mines_surrounding size g (p.1 : Int) (p.2 : Int))) a b =
            cellN (setCell g p.1 p.2
              (num_mines_surrounding size g (p.1 : Int) (p.2 : Int)))
              a.toNat b.toNat := rfl
        rw [hview, cellN_setCell g p.1 p.2 a.toNat b.toNat _ hglen hclen]
        by_cases hab2 : a.toNat = p.1 ∧ b.toNat = p.2
        · rw [if_pos hab2]
          have hposn := num_mines_surrounding_nonneg size g (p.1 : Int) (p.2 : Int)
          have ha : a = (p.1 : Int) := by omega
          have hb : b = (p.2 : Int) := by omega
          rw [ha, hb, ← hequiv (p.1 : Int) (p.2 : Int) hwp]
          constructor
          · intro h
            omega
          · intro h
            exact absurd h hm
        · rw [if_neg hab2]
          exact hequiv a b hab
      rw [hstep]
      obtain ⟨c1, c2, c3, c4⟩ := ihp _ hWF' hnd' hbounds' hequiv'
      refine ⟨c1, c2, ?_, ?_⟩
      · intro q hq
        rcases List.mem_cons.mp hq with rfl | hq
        · rw [c4 q hpn,
            cellN_setCell_self g q.1 q.2 _ hglen hclen,
            if_neg (fun h => hm ((hequiv _ _ hwp).mpr h))]
          exact num_mines_surrounding_congr size g g0 (q.1 : Int) (q.2 : Int)
            (mine_beq_congr hequiv)
        · have hqp : ¬(q.1 = p.1 ∧ q.2 = p.2) := by
            rintro ⟨h1, h2⟩
            exact hpn (by rw [← Prod.ext h1 h2]; exact hq)
          have hc3 := c3 q hq
          rw [cellN_setCell_ne g p.1 p.2 q.1 q.2 _ hqp] at hc3
          exact hc3
      · intro q hq
        have hq1 : q ∉ ps := fun h => hq (List.mem_cons_of_mem p h)
        have hq2 : ¬(q.1 = p.1 ∧ q.2 = p.2) := by
          rintro ⟨h1, h2⟩
          exact hq (by rw [List.mem_cons]; left; exact Prod.ext h1 h2)
        rw [c4 q hq1, cellN_setCell_ne g p.1 p.2 q.1 q.2 _ hq2]

theorem filter_mem_length {α : Type} (l s : List α) (p : α → Bool)
    (hl : l.Nodup) (hs : s.Nodup) (hsub : ∀ x ∈ s, x ∈ l)
    (hp : ∀ x ∈ l, (p x = true ↔ x ∈ s)) :
    (l.filter p).length = s.length := by
  apply List.Perm.length_eq
  apply (List.perm_ext_iff_of_nodup (hl.filter _) hs).mpr
  intro x
  simp only [List.mem_filter]
  constructor
  · rintro ⟨hxl, hxp⟩
    exact (hp x hxl).mp hxp
  · intro hx
    exact ⟨hsub x hx, (hp x (hsub x hx)).mpr hx⟩

theorem num_mines_surrounding_placed (size : Nat) (hsize : 0 < size)
    (locs : List Nat) (hlocs : ∀ f ∈ locs, f < size * size) (r c : Nat) :
    num_mines_surrounding size (place_mines size locs) (r : Int) (c : Int) =
      (mooreMineCount size locs r c : Int) := by
  rw [num_mines_surrounding_eq]
  unfold mooreMineCount
  rw [Nat.cast_inj]
  apply congrArg List.length
  apply List.filter_congr
  intro d _
  by_cases hw : within_board size ((r : Int) + d.1) ((c : Int) + d.2) = true
  · rw [hw]
    simp only [Bool.true_and]
    obtain ⟨ha1, ha2, hb1, hb2⟩ := (within_board_iff _ _ _).mp hw
    have hb1' : ((r : Int) + d.1).toNat < size := by omega
    have hb2' : ((c : Int) + d.2).toNat < size := by omega
    have hview : cell (place_mines size locs) ((r : Int) + d.1) ((c : Int) + d.2) =
        cellN (place_mines size locs) ((r : Int) + d.1).toNat
          ((c : Int) + d.2).toNat := rfl
    rw [hview, (place_mines_spec size hsize locs hlocs).2 _ _ hb1' hb2']
    by_cases hmine : mineAt size locs ((r : Int) + d.1).toNat ((c : Int) + d.2).toNat
    · rw [if_pos hmine]
      simp [hmine]
    · rw [if_neg hmine]
      simp [hmine]
  · rw [Bool.eq_false_iff.mpr hw]
    simp

/-- C5: a construction with valid arguments and any valid sample of mine
positions yields a board whose grid has exactly `mine_count` cells equal to
`-1` (the sampled positions), and every non-mine cell holds the brute-force
count of mines among its in-board Moore neighbours. -/
theorem C5_construction (size mines : Nat) (locs : List Nat)
    (hpos : 0 < size) (hmle : mines ≤ size * size)
    (hsample : validSample size mines locs) :
    ∃ B, boardNew (size : Int) (mines : Int) locs = some B ∧
      B.board_size = size ∧ B.num_mines = mines ∧ B.WF ∧
      ((allPos size).filter (fun p => cellN B.board p.1 p.2 == -1)).length
        = mines ∧
      (∀ r c : Nat, r < size → c < size → cellN B.board r c ≠ -1 →
        cellN B.board r c = (mooreMineCount size locs r c : Int)) := by
  obtain ⟨hnd, hlen, hlt⟩ := hsample
  have hc1 : ¬ ((size : Int) < 0) := by omega
  have hsq : ((size : Int)) ^ 2 = ((size * size : Nat) : Int) := by
    push_cast
    ring
  have hc2 : ¬ ((mines : Int) < 0 ∨ ((size : Int)) ^ 2 < (mines : Int)) := by
    rw [hsq]
    omega
  have hb : boardNew (size : Int) (mines : Int) locs = some
      { board_size := size
        num_mines := mines
        board := compute_counts size (place_mines size locs)
        visibility := constGrid size false
        flags := constGrid size false } := by
    unfold boardNew
    rw [if_neg hc1, if_neg hc2]
    rfl
  obtain ⟨hWFp, hplaced⟩ := place_mines_spec size hpos locs hlt
  have hbounds : ∀ p ∈ allPos size, p.1 < size ∧ p.2 < size :=
    fun p hp => (allPos_mem size p).mp hp
  obtain ⟨cWF, cequiv, cval, cother⟩ := compute_fold_spec size
    (place_mines size locs) (allPos size) (place_mines size locs) hWFp
    (allPos_nodup size) hbounds (fun a b _ => Iff.rfl)
  refine ⟨_, hb, rfl, rfl, ⟨cWF, gridWF_constGrid size false,
    gridWF_constGrid size false⟩, ?_, ?_⟩
  · show ((allPos size).filter (fun p =>
        cellN (compute_counts size (place_mines size locs)) p.1 p.2 == -1)).length
        = mines
    have hlpnd : (locs.map (fun f => (f / size, f % size))).Nodup := by
      apply hnd.map_on
      intro x hx y hy hxy
      obtain ⟨h1, h2⟩ := Prod.mk.injEq .. |>.mp hxy
      calc x = size * (x / size) + x % size := (Nat.div_add_mod x size).symm
        _ = size * (y / size) + y % size := by rw [h1, h2]
        _ = y := Nat.div_add_mod y size
    have hlpsub : ∀ q ∈ locs.map (fun f => (f / size, f % size)), q ∈ allPos size := by
      intro q hq
      obtain ⟨f, hf, rfl⟩ := List.mem_map.mp hq
      rw [allPos_mem]
      exact ⟨Nat.div_lt_of_lt_mul (hlt f hf), Nat.mod_lt f hpos⟩
    have hpred : ∀ q ∈ allPos size,
        ((cellN (compute_counts size (place_mines size locs)) q.1 q.2 == -1) = true ↔
          q ∈ locs.map (fun f => (f / size, f % size))) := by
      intro q hq
      obtain ⟨hq1, hq2⟩ := (allPos_mem size q).mp hq
      have hwq : within_board size (q.1 : Int) (q.2 : Int) = true :=
        inbounds_within hq1 hq2
      have h1 : cellN (compute_counts size (place_mines size locs)) q.1 q.2 = -1 ↔
          cell (place_mines size locs) (q.1 : Int) (q.2 : Int) = -1 :=
        cequiv (q.1 : Int) (q.2 : Int) hwq
      have h3 : mineAt size locs q.1 q.2 ↔
          q ∈ locs.map (fun f => (f / size, f % size)) := by
        rw [List.mem_map]
        constructor
        · rintro ⟨f, hf, he1, he2⟩
          exact ⟨f, hf, by rw [← he1, ← he2]⟩
        · rintro ⟨f, hf, he⟩
          exact ⟨f, hf, by rw [← he], by rw [← he]⟩
      have h2 : cell (place_mines size locs) (q.1 : Int) (q.2 : Int) =
          if mineAt size locs q.1 q.2 then -1 else 0 :=
        hplaced q.1 q.2 hq1 hq2
      rw [beq_iff_eq, h1, h2]
      by_cases hm : mineAt size locs q.1 q.2
      · rw [if_pos hm]
        constructor
        · intro _
          exact h3.mp hm
        · intro _
          rfl
      · rw [if_neg hm]
        constructor
        · intro h
          exact absurd h (by decide)
        · intro h
          exact absurd (h3.mpr h) hm
    refine (filter_mem_length (allPos size) _ _ (allPos_nodup size) hlpnd hlpsub
      hpred).trans ?_
    rw [List.length_map]
    exact hlen
  · intro r c hr hc hne
    have hwq : within_board size (r : Int) (c : Int) = true := inbounds_within hr hc
    have hval := cval (r, c) ((allPos_mem size (r, c)).mpr ⟨hr, hc⟩)
    have hcond : ¬ cell (place_mines size locs) (r : Int) (c : Int) = -1 := by
      intro h
      exact hne ((cequiv (r : Int) (c : Int) hwq).mpr h)
    rw [if_neg hcond] at hval
    show cellN (compute_counts size (place_mines size locs)) r c = _
    rw [compute_counts, hval]
    exact num_mines_surrounding_placed size hpos locs hlt r c

instance (size n : Nat) (locs : List Nat) : Decidable (validSample size n locs) := by
  unfold validSample
  infer_instance

/-- Witness for C5: a 2×2 board with one mine sampled at flat index 3,
i.e. cell (1, 1). -/
theorem C5_construction_witness :
    ∃ B, boardNew ((2 : Nat) : Int) ((1 : Nat) : Int) [3] = some B ∧
      B.board_size = 2 ∧ B.num_mines = 1 ∧ B.WF ∧
      ((allPos 2).filter (fun p => cellN B.board p.1 p.2 == -1)).length = 1 ∧
      (∀ r c : Nat, r < 2 → c < 2 → cellN B.board r c ≠ -1 →
        cellN B.board r c = (mooreMineCount 2 [3] r c : Int)) :=
  C5_construction 2 1 [3] (by decide) (by decide) (by decide)

/-- Counterexample to C8 as stated: `Board(0, 0)` has `size ≤ 0`, yet the
constructor succeeds (numpy accepts a zero-sized array and an empty sample)
instead of failing with `InvalidConfiguration`. -/
theorem C8_counterexample : (0 : Int) ≤ 0 ∧ (boardNew 0 0 []).isSome = true := by
  decide

/-- C8 (amended): construction performs no validation of its own; it aborts
(with the underlying library's `ValueError`, modelled `none`) exactly when
`size < 0`, `mine_count < 0` or `mine_count > size²` — in particular
`size = 0` with `mine_count = 0` constructs an empty board rather than
failing — and on success the stored size and mine count are exactly the
requested values, never clamped. -/
theorem C8_construction_errors (board_size num_mines : Int) (locs : List Nat) :
    (boardNew board_size num_mines locs = none ↔
      board_size < 0 ∨ num_mines < 0 ∨ board_size ^ 2 < num_mines) ∧
    (∀ B, boardNew board_size num_mines locs = some B →
      B.board_size = board_size.toNat ∧ B.num_mines = num_mines.toNat) := by
  unfold boardNew
  split_ifs with h1 h2
  · refine ⟨⟨fun _ => Or.inl h1, fun _ => rfl⟩, ?_⟩
    intro B h
    exact absurd h (by simp)
  · refine ⟨⟨fun _ => Or.inr h2, fun _ => rfl⟩, ?_⟩
    intro B h
    exact absurd h (by simp)
  · refine ⟨?_, ?_⟩
    · constructor
      · intro h
        exact absurd h (by simp)
      · rintro (h | h | h)
        · exact absurd h h1
        · exact absurd (Or.inl h) h2
        · exact absurd (Or.inr h) h2
    · intro B h
      rw [Option.some_inj] at h
      rw [← h]
      exact ⟨rfl, rfl⟩

/-- Witness for the amended C8 at a successful concrete construction. -/
theorem C8_construction_errors_witness :
    (boardNew 3 2 [0, 5] = none ↔
      (3 : Int) < 0 ∨ (2 : Int) < 0 ∨ (3 : Int) ^ 2 < (2 : Int)) ∧
    (∀ B, boardNew 3 2 [0, 5] = some B →
      B.board_size = (3 : Int).toNat ∧ B.num_mines = (2 : Int).toNat) :=
  C8_construction_errors 3 2 [0, 5]

end Minesweeper
